import Mathlib

/-!
Verification of the workflow orchestration core (schema model, DAG
validator, task context, execution engine, concurrent fan-out) of the
`genai_launchpad` template shipped in this repository.

Node identities (Python classes used as graph keys) are modelled as `Nat`.
Python `dict`s are modelled as association lists with dict semantics
(`Dict` below); Python in-place mutation of the shared `TaskContext` is
modelled by explicit state passing, and exceptions by `Except` /
error-option results.
-/

namespace Launchpad

/-- Association-list model of a Python `dict`: insertion order is the list
order, a key occurs at most once in any dict actually built by the code. -/
abbrev Dict (K V : Type) : Type := List (K × V)

namespace Dict

variable {K V : Type} [DecidableEq K]

/-- Empty dict (`{}`). -/
def empty : Dict K V := []

/-- First-match lookup, `d.get(k)` / `d[k]`. -/
def dlookup : Dict K V → K → Option V
  | [], _ => none
  | (k', v') :: rest, k => if k' = k then some v' else dlookup rest k

/-- Key membership, `k in d`. -/
def dcontains (d : Dict K V) (k : K) : Bool :=
  (dlookup d k).isSome

/-- Assignment `d[k] = v`: replaces the value in place if the key is
present (keeping its position, as Python dicts do), else appends. -/
def dinsert : Dict K V → K → V → Dict K V
  | [], k, v => [(k, v)]
  | (k', v') :: rest, k, v =>
    if k' = k then (k, v) :: rest else (k', v') :: dinsert rest k v

/-- Deletion `d.pop(k)` (the key's absence is the caller's concern). -/
def dremove : Dict K V → K → Dict K V
  | [], _ => []
  | (k', v') :: rest, k =>
    if k' = k then rest else (k', v') :: dremove rest k

/-- Dict merge `{**d1, **d2}`: entries of `d2` override those of `d1`
key by key, later entries of `d2` overriding earlier ones. -/
def dmerge (d1 d2 : Dict K V) : Dict K V :=
  d2.foldl (fun acc p => dinsert acc p.1 p.2) d1

/-- The keys, in order. -/
def keysOf (d : Dict K V) : List K := d.map Prod.fst

/-- Well-formedness every Python dict has by construction: no repeated key. -/
def WF (d : Dict K V) : Prop := (keysOf d).Nodup

end Dict

open Dict

/-! ### Schema model (`core/schema.py`) -/

/-- `NodeConfig` from `core/schema.py`: one node's declared shape.  The
`node` field is the node's identity; `connections` the ordered successor
identities; `concurrent_nodes` the fan-out siblings. -/
structure NodeConfig where
  node : Nat
  connections : List Nat := []
  is_router : Bool := false
  concurrent_nodes : List Nat := []
  deriving Repr, DecidableEq

/-- `WorkflowSchema` from `core/schema.py`: the start identity and the
declared node configurations (the `event_schema` parsing class lives in
the engine model, `EngineModel.parseEvent`). -/
structure WorkflowSchema where
  start : Nat
  nodes : List NodeConfig
  deriving Repr, DecidableEq

/-- The first declared config for an identity:
`next((nc for nc in self.workflow_schema.nodes if nc.node == node), None)`. -/
def findConfig (s : WorkflowSchema) (n : Nat) : Option NodeConfig :=
  s.nodes.find? (fun nc => nc.node = n)

/-- The successor identities the graph traversals see for `n`: the
connections of its first declared config, `[]` when none is declared. -/
def succs (s : WorkflowSchema) (n : Nat) : List Nat :=
  match findConfig s n with
  | some nc => nc.connections
  | none => []

/-- The configured identities, `set(nc.node for nc in nodes)`. -/
def allNodes (s : WorkflowSchema) : Finset Nat :=
  s.nodes.foldr (fun nc acc => insert nc.node acc) ∅

/-- Every identity the schema mentions (start, configured nodes, declared
successors): the universe the traversals can touch. -/
def mentioned (s : WorkflowSchema) : Finset Nat :=
  insert s.start
    (s.nodes.foldr
      (fun nc acc => insert nc.node (nc.connections.foldr insert acc)) ∅)

/-- Successor-edge relation of the schema, as the spec describes it:
`b` is a declared successor of `a`. -/
def Edge (s : WorkflowSchema) (a b : Nat) : Prop :=
  b ∈ succs s a

instance (s : WorkflowSchema) (a b : Nat) : Decidable (Edge s a b) := by
  unfold Edge; infer_instance

/-- Spec-side notion: the successor graph contains a cycle, i.e. some
identity has a nonempty path over successor edges back to itself. -/
def SpecHasCycle (s : WorkflowSchema) : Prop :=
  ∃ n, Relation.TransGen (Edge s) n n

/-- Spec-side notion: `n` is reachable from the start node via successor
edges. -/
def SpecReachable (s : WorkflowSchema) (n : Nat) : Prop :=
  Relation.ReflTransGen (Edge s) s.start n

/-! ### Task context (`core/task.py`) -/

/-- Metadata values are heterogeneous in the source (`Dict[str, Any]`);
the engine stores the identity-to-config map under the `"nodes"` key and
node bodies store payload data. -/
inductive MetaVal (V : Type) where
  | cfgMap (m : Dict Nat NodeConfig)
  | data (v : V)
  deriving Repr, DecidableEq

/-- `TaskContext` from `core/task.py`: the run-scoped mutable state.
`nodes` maps a node name to its result record (a dict of fields). -/
structure TaskContext (V : Type) where
  event : V
  nodes : Dict String (Dict String V) := []
  metadata : Dict String (MetaVal V) := []
  should_stop : Bool := false
  deriving Repr, DecidableEq

/-- `TaskContext.update_node`:
`self.nodes[node_name] = {**self.nodes.get(node_name, {}), **kwargs}`. -/
def TaskContext.update_node {V : Type} (ctx : TaskContext V)
    (node_name : String) (kwargs : Dict String V) : TaskContext V :=
  { ctx with
    nodes := dinsert ctx.nodes node_name
      (dmerge ((dlookup ctx.nodes node_name).getD []) kwargs) }

/-- `TaskContext.stop_workflow`: sets the stop flag. -/
def TaskContext.stop_workflow {V : Type} (ctx : TaskContext V) : TaskContext V :=
  { ctx with should_stop := true }

/-! ### Validator (`core/validate.py`) -/

/-- What `WorkflowValidator.validate` can raise (each `ValueError`'s
content, so that an error names what the message names). -/
inductive VErr where
  | cycle
  | unreachable (ns : Finset Nat)
  | arity (node : Nat) (count : Nat)
  deriving DecidableEq

/-- Inner loop of `_has_cycle`'s `dfs` over the current node's neighbor
list.  `stack` is the recursion stack (`rec_stack`), with the current node
at its head; `child` is the recursive `dfs` call; the visited set threads
through, and the first `True` returns immediately. -/
def dfsList (child : Nat → Finset Nat → Finset Nat × Bool)
    (stack : List Nat) :
    List Nat → Finset Nat → Finset Nat × Bool
  | [], vis => (vis, false)
  | nb :: rest, vis =>
    if nb ∈ vis then
      if nb ∈ stack then (vis, true) else dfsList child stack rest vis
    else
      match child nb vis with
      | (vis', true) => (vis', true)
      | (vis', false) => dfsList child stack rest vis'

/-- The recursive `dfs` of `_has_cycle`: adds the node to `visited` and to
the recursion stack, then walks its configured connections.  The source
recursion terminates because each nested call starts from a strictly
larger visited set; `fuel` makes that depth bound explicit and is chosen
(`dfsFuel`) so the `0` case is never reached. -/
def dfsVisit (s : WorkflowSchema) : Nat → Nat → List Nat → Finset Nat → Finset Nat × Bool
  | 0, _, _, vis => (vis, false)
  | fuel + 1, n, stack, vis =>
    dfsList (fun nb v => dfsVisit s fuel nb (n :: stack) v) (n :: stack)
      (succs s n) (insert n vis)

/-- The outer loop of `_has_cycle`: run `dfs` from every not-yet-visited
configured node. -/
def hasCycleLoop (s : WorkflowSchema) (fuel : Nat) :
    List NodeConfig → Finset Nat → Bool
  | [], _ => false
  | nc :: rest, vis =>
    if nc.node ∈ vis then hasCycleLoop s fuel rest vis
    else
      match dfsVisit s fuel nc.node [] vis with
      | (_, true) => true
      | (vis', false) => hasCycleLoop s fuel rest vis'

/-- Depth budget that the source's unbounded recursion never exceeds: one
more than the number of identities the schema mentions. -/
def dfsFuel (s : WorkflowSchema) : Nat := (mentioned s).card + 1

/-- `WorkflowValidator._has_cycle`. -/
def has_cycle (s : WorkflowSchema) : Bool :=
  hasCycleLoop s (dfsFuel s) s.nodes ∅

/-- Total number of declared successor edges; bounds how much one BFS
step can grow the queue. -/
def totalConn (s : WorkflowSchema) : Nat :=
  (s.nodes.map (fun nc => nc.connections.length)).sum

/-- The BFS loop of `_get_reachable_nodes`: pop the queue head; if it is
new, record it and enqueue its configured connections. -/
def bfsAux (s : WorkflowSchema) : Nat → List Nat → Finset Nat → Finset Nat
  | 0, _, reach => reach
  | _ + 1, [], reach => reach
  | fuel + 1, q :: qs, reach =>
    if q ∈ reach then bfsAux s fuel qs reach
    else bfsAux s fuel (qs ++ succs s q) (insert q reach)

/-- Step budget the source's BFS never exceeds. -/
def bfsFuel (s : WorkflowSchema) : Nat :=
  1 + (1 + (mentioned s).card) * (1 + totalConn s)

/-- `WorkflowValidator._get_reachable_nodes`: BFS from the start node. -/
def reachableSet (s : WorkflowSchema) : Finset Nat :=
  bfsAux s (bfsFuel s) [s.start] ∅

/-- `WorkflowValidator._validate_connections`: first node config with more
than one connection and no router flag raises. -/
def validateConnections : List NodeConfig → Except VErr Unit
  | [] => .ok ()
  | nc :: rest =>
    if nc.connections.length > 1 && !nc.is_router then
      .error (.arity nc.node nc.connections.length)
    else validateConnections rest

/-- `WorkflowValidator.validate`: `_validate_dag` (cycle check, then
reachability) followed by `_validate_connections`. -/
def validate (s : WorkflowSchema) : Except VErr Unit :=
  if has_cycle s then .error .cycle
  else
    let unreach := allNodes s \ reachableSet s
    if unreach = ∅ then validateConnections s.nodes
    else .error (.unreachable unreach)

/-! ### Engine (`core/workflow.py`) -/

/-- How a run ends: the loop condition turned false (`Completed`) or the
stop flag broke the loop (`Stopped`). -/
inductive TermStatus where
  | completed
  | stopped
  deriving Repr, DecidableEq

/-- Observable engine events: the `node_context` log lines, a node body
invocation (with the context it receives), and a routing decision. -/
inductive Ev (V : Type) where
  | logStart (n : Nat)
  | logError (n : Nat)
  | logFinish (n : Nat)
  | proc (n : Nat) (pre : TaskContext V)
  | routed (n : Nat) (res : Option Nat)
  deriving Repr, DecidableEq

/-- How a run can abort: event parsing failed, a node-map lookup failed
(`KeyError`), a node body raised (carrying the context as the body left
it), or the final `metadata.pop("nodes")` failed, or the model's loop
budget ran out (never with sufficient fuel). -/
inductive EngErr (V : Type) where
  | parseFail (msg : String)
  | keyErr
  | nodeErr (n : Nat) (msg : String) (ctx : TaskContext V)
  | popKeyErr
  | fuelOut
  deriving Repr, DecidableEq

/-- The pieces of a concrete workflow the engine dispatches on: the
schema, which node classes subclass `BaseRouter`, each node's `process`
body (returning the context as mutated plus an optional raised
exception), each router's ordered rules and fallback, and the
`event_schema` parser. -/
structure EngineModel (V : Type) where
  schema : WorkflowSchema
  isRouterClass : Nat → Bool
  bodies : Nat → TaskContext V → TaskContext V × Option String
  rules : Nat → List (TaskContext V → Option Nat)
  fallback : Nat → Option Nat
  parseEvent : V → Except String V

/-- `Workflow._initialize_nodes`: each declared config keyed by its node,
and an implicit empty config for every connection not yet present. -/
def initNodes (s : WorkflowSchema) : Dict Nat NodeConfig :=
  s.nodes.foldl
    (fun acc nc =>
      nc.connections.foldl
        (fun acc2 cn =>
          if dcontains acc2 cn then acc2 else dinsert acc2 cn { node := cn })
        (dinsert acc nc.node nc))
    []

/-- The rule scan in `BaseRouter.route`: first rule whose
`determine_next_node` returns a node wins. -/
def routeFirst {V : Type} : List (TaskContext V → Option Nat) → TaskContext V → Option Nat
  | [], _ => none
  | r :: rs, ctx =>
    match r ctx with
    | some nxt => some nxt
    | none => routeFirst rs ctx

/-- `BaseRouter.route` for the router class `c`: first matching rule,
else the fallback, else nothing. -/
def route {V : Type} (M : EngineModel V) (c : Nat) (ctx : TaskContext V) : Option Nat :=
  match routeFirst (M.rules c) ctx with
  | some nxt => some nxt
  | none => M.fallback c

/-- `Workflow._get_next_node_class` (with `_handle_router` inlined):
no declared config or no connections means no next node; a router-flagged
config routes; otherwise the first connection.  Also returns the routing
event emitted, if any. -/
def getNextNodeClass {V : Type} (M : EngineModel V) (c : Nat) (ctx : TaskContext V) :
    Option Nat × List (Ev V) :=
  match findConfig M.schema c with
  | none => (none, [])
  | some cfg =>
    match cfg.connections with
    | [] => (none, [])
    | h :: _ =>
      if cfg.is_router then
        let r := route M c ctx
        (r, [.routed c r])
      else (some h, [])

/-- End of `Workflow.__run`: `task_context.metadata.pop("nodes")` (a
`KeyError` if absent) and return the context. -/
def finishRun {V : Type} (ctx : TaskContext V) (st : TermStatus) :
    Except (EngErr V) (TaskContext V × TermStatus) :=
  if dcontains ctx.metadata "nodes" then
    .ok ({ ctx with metadata := dremove ctx.metadata "nodes" }, st)
  else .error .popKeyErr

/-- One node's slice of the loop body: the `node_context` block.  Router
classes are not processed (`issubclass(current_node, BaseRouter)`); other
classes run `process`, whose exception is logged with the node identity
and re-raised. -/
def bodyPhase {V : Type} (M : EngineModel V) (c : Nat) (ctx : TaskContext V) :
    List (Ev V) × Except (EngErr V) (TaskContext V) :=
  if M.isRouterClass c then ([.logStart c, .logFinish c], .ok ctx)
  else
    match M.bodies c ctx with
    | (ctx', none) => ([.logStart c, .proc c ctx, .logFinish c], .ok ctx')
    | (ctx', some msg) =>
      ([.logStart c, .proc c ctx, .logError c, .logFinish c],
        .error (.nodeErr c msg ctx'))

/-- The `while current_node_class:` loop of `Workflow.__run`: check the
stop flag, look the node up in the materialized map, run the body phase,
compute the next node, recurse.  `fuel` bounds the iteration count; the
`0` case is a distinguished model-only outcome. -/
def runLoop {V : Type} (M : EngineModel V) (cfgs : Dict Nat NodeConfig) :
    Nat → Option Nat → TaskContext V →
    List (Ev V) × Except (EngErr V) (TaskContext V × TermStatus)
  | _, none, ctx => ([], finishRun ctx .completed)
  | 0, some _, _ => ([], .error .fuelOut)
  | fuel + 1, some c, ctx =>
    if ctx.should_stop then ([], finishRun ctx .stopped)
    else
      match dlookup cfgs c with
      | none => ([], .error .keyErr)
      | some _ =>
        match bodyPhase M c ctx with
        | (ev1, .error e) => (ev1, .error e)
        | (ev1, .ok ctx') =>
          let nx := getNextNodeClass M c ctx'
          let rest := runLoop M cfgs fuel nx.1 ctx'
          (ev1 ++ nx.2 ++ rest.1, rest.2)

/-- `Workflow.__run`: parse the event, build the node map, inject it
into metadata, run the loop from the start node. -/
def runWorkflow {V : Type} (M : EngineModel V) (fuel : Nat) (rawEvent : V) :
    List (Ev V) × Except (EngErr V) (TaskContext V × TermStatus) :=
  match M.parseEvent rawEvent with
  | .error msg => ([], .error (.parseFail msg))
  | .ok ev =>
    let cfgs := initNodes M.schema
    let ctx0 : TaskContext V :=
      { event := ev, nodes := [], metadata := dinsert [] "nodes" (.cfgMap cfgs),
        should_stop := false }
    runLoop M cfgs fuel (some M.schema.start) ctx0

/-- The loop of `Workflow.__run` as a big-step relation, one constructor
per way an iteration can go; used to state that a run's outcome is a
function of its inputs. -/
inductive RunRel {V : Type} (M : EngineModel V) (cfgs : Dict Nat NodeConfig) :
    Option Nat → TaskContext V → List (Ev V) →
    Except (EngErr V) (TaskContext V × TermStatus) → Prop
  | done (ctx : TaskContext V) :
      RunRel M cfgs none ctx [] (finishRun ctx .completed)
  | halt (c : Nat) (ctx : TaskContext V) (h : ctx.should_stop = true) :
      RunRel M cfgs (some c) ctx [] (finishRun ctx .stopped)
  | missing (c : Nat) (ctx : TaskContext V) (h : ctx.should_stop = false)
      (hk : dlookup cfgs c = none) :
      RunRel M cfgs (some c) ctx [] (.error .keyErr)
  | bodyFail (c : Nat) (ctx ctx' : TaskContext V) (cfg : NodeConfig) (msg : String)
      (h : ctx.should_stop = false) (hk : dlookup cfgs c = some cfg)
      (hr : M.isRouterClass c = false) (hb : M.bodies c ctx = (ctx', some msg)) :
      RunRel M cfgs (some c) ctx
        [.logStart c, .proc c ctx, .logError c, .logFinish c]
        (.error (.nodeErr c msg ctx'))
  | stepTask (c : Nat) (ctx ctx' : TaskContext V) (cfg : NodeConfig)
      (tr : List (Ev V)) (res : Except (EngErr V) (TaskContext V × TermStatus))
      (h : ctx.should_stop = false) (hk : dlookup cfgs c = some cfg)
      (hr : M.isRouterClass c = false) (hb : M.bodies c ctx = (ctx', none))
      (hrest : RunRel M cfgs (getNextNodeClass M c ctx').1 ctx' tr res) :
      RunRel M cfgs (some c) ctx
        ([.logStart c, .proc c ctx, .logFinish c] ++ (getNextNodeClass M c ctx').2 ++ tr)
        res
  | stepRouter (c : Nat) (ctx : TaskContext V) (cfg : NodeConfig)
      (tr : List (Ev V)) (res : Except (EngErr V) (TaskContext V × TermStatus))
      (h : ctx.should_stop = false) (hk : dlookup cfgs c = some cfg)
      (hr : M.isRouterClass c = true)
      (hrest : RunRel M cfgs (getNextNodeClass M c ctx).1 ctx tr res) :
      RunRel M cfgs (some c) ctx
        ([.logStart c, .logFinish c] ++ (getNextNodeClass M c ctx).2 ++ tr)
        res

/-! ### Concurrent fan-out (`core/nodes/concurrent.py`) -/

/-- `asyncio.gather` over already-created coroutines with no inner
suspension points: they complete in declaration order and the first
raised exception propagates; on success the results keep declaration
order. -/
def gatherJoin {V : Type} :
    List (TaskContext V × Option String) → Except String (List (TaskContext V))
  | [] => .ok []
  | (_, some msg) :: _ => .error msg
  | (c, none) :: rest =>
    match gatherJoin rest with
    | .ok cs => .ok (c :: cs)
    | .error e => .error e

/-- `ConcurrentNode.execute_nodes_concurrently`: read the node map from
`metadata["nodes"]`, look up this node's config, gather one `process`
per declared concurrent sibling. -/
def executeNodesConcurrently {V : Type} (M : EngineModel V) (selfId : Nat)
    (ctx : TaskContext V) : Except String (List (TaskContext V)) :=
  match dlookup ctx.metadata "nodes" with
  | some (.cfgMap m) =>
    match dlookup m selfId with
    | some cfg => gatherJoin (cfg.concurrent_nodes.map (fun n => M.bodies n ctx))
    | none => .error "KeyError: node config"
  | _ => .error "KeyError: nodes metadata"

/-! ### Ghost state for the DFS correctness argument -/

/-- The DFS recursion stack read bottom-up is a path: each node on the
stack is a declared successor of the node below it. -/
def StackOK (s : WorkflowSchema) : List Nat → Prop
  | [] => True
  | [_] => True
  | a :: b :: rest => Edge s b a ∧ StackOK s (b :: rest)

/-- Finished ("black") DFS nodes listed most-recently-finished first:
each one's successors all finished strictly earlier.  Such a list can
contain no node of a cycle. -/
inductive Layered (s : WorkflowSchema) : List Nat → Prop
  | nil : Layered s []
  | cons (b : Nat) (L : List Nat) (hb : b ∉ L)
      (hsucc : ∀ y ∈ succs s b, y ∈ L) (hL : Layered s L) :
      Layered s (b :: L)

/-- DFS invariant: the visited set is exactly the recursion stack plus a
layered list of finished nodes, and the two are disjoint. -/
def BlackInv (s : WorkflowSchema) (stack : List Nat) (vis : Finset Nat)
    (L : List Nat) : Prop :=
  Layered s L ∧ (∀ x, x ∈ vis ↔ x ∈ stack ∨ x ∈ L) ∧ (∀ x ∈ stack, x ∉ L)

/-! ### Concrete fixtures and invariant definitions used by the theorems -/

def MetaInv {V : Type} (cm : Dict Nat NodeConfig) (ctx : TaskContext V) : Prop :=
  dlookup ctx.metadata "nodes" = some (.cfgMap cm) ∧ Dict.WF ctx.metadata

def PreservesNodesEntry {V : Type} (M : EngineModel V) (cm : Dict Nat NodeConfig) : Prop :=
  ∀ n ctx, MetaInv cm ctx → MetaInv cm (M.bodies n ctx).1

def cexSchemaRouter : WorkflowSchema := ⟨0, [⟨0, [], true, []⟩]⟩

def cexModelRouter : EngineModel Nat where
  schema := cexSchemaRouter
  isRouterClass := fun n => n == 0
  bodies := fun _ c => (c, none)
  rules := fun _ => [fun _ => some 1]
  fallback := fun _ => none
  parseEvent := fun v => .ok v

def cexCtxRouter : TaskContext Nat :=
  ⟨0, [], [("nodes", .cfgMap (initNodes cexSchemaRouter))], false⟩

def cexSchemaMixed : WorkflowSchema := ⟨5, [⟨5, [], true, []⟩]⟩

def cexModelMixed : EngineModel Nat where
  schema := cexSchemaMixed
  isRouterClass := fun _ => false
  bodies := fun n c => ({ c with nodes := dinsert c.nodes "node5" [("ran", n)] }, none)
  rules := fun _ => []
  fallback := fun _ => none
  parseEvent := fun v => .ok v

def cexCtxMixed : TaskContext Nat :=
  ⟨0, [], [("nodes", .cfgMap (initNodes cexSchemaMixed))], false⟩

def cexSchemaUnreach : WorkflowSchema := ⟨0, [⟨1, [1], false, []⟩]⟩

def wSchema : WorkflowSchema := ⟨0, [⟨0, [1, 2], true, []⟩]⟩

def wModel : EngineModel Nat where
  schema := wSchema
  isRouterClass := fun n => n == 0
  bodies := fun _ c => (c, none)
  rules := fun _ => [fun _ => none]
  fallback := fun _ => none
  parseEvent := fun v => .ok v

def wCtx : TaskContext Nat :=
  ⟨0, [], [("nodes", .cfgMap (initNodes wSchema))], false⟩

def wStopSchema : WorkflowSchema := ⟨0, [⟨0, [], false, []⟩]⟩

def wStopModel : EngineModel Nat where
  schema := wStopSchema
  isRouterClass := fun _ => false
  bodies := fun _ c => ({ c with should_stop := true }, none)
  rules := fun _ => []
  fallback := fun _ => none
  parseEvent := fun v => .ok v

def wStopCtx : TaskContext Nat :=
  ⟨0, [], [("nodes", .cfgMap (initNodes wStopSchema))], false⟩

def wFailModel : EngineModel Nat where
  schema := wStopSchema
  isRouterClass := fun _ => false
  bodies := fun _ c => (c, some "boom")
  rules := fun _ => []
  fallback := fun _ => none
  parseEvent := fun v => .ok v

def wFanCfg : NodeConfig := ⟨7, [], false, [1, 2]⟩

def wFanCtx : TaskContext Nat :=
  ⟨0, [], [("nodes", .cfgMap [(7, wFanCfg)])], false⟩

def wFanModel : EngineModel Nat where
  schema := wStopSchema
  isRouterClass := fun _ => false
  bodies := fun _ c => (c, none)
  rules := fun _ => []
  fallback := fun _ => none
  parseEvent := fun v => .ok v

def wHaltCtx : TaskContext Nat := ⟨0, [], [], true⟩

def wUnreachSchema : WorkflowSchema := ⟨0, [⟨1, [], false, []⟩]⟩

def wC9Ctx : TaskContext Nat := ⟨0, [("A", [("x", 1), ("z", 5)])], [], false⟩

/-! ## Theorems -/

namespace Dict

variable {K V : Type} [DecidableEq K]

theorem dlookup_dinsert_self (d : Dict K V) (k : K) (v : V) :
    dlookup (dinsert d k v) k = some v := by
  induction d with
  | nil => simp [dinsert, dlookup]
  | cons p rest ih =>
    obtain ⟨k', v'⟩ := p
    by_cases h : k' = k <;> simp [dinsert, dlookup, h, ih]

theorem dlookup_dinsert_ne (d : Dict K V) (k k' : K) (v : V) (h : k ≠ k') :
    dlookup (dinsert d k v) k' = dlookup d k' := by
  induction d with
  | nil => simp [dinsert, dlookup, h]
  | cons p rest ih =>
    obtain ⟨k'', v''⟩ := p
    by_cases h2 : k'' = k
    · subst h2
      simp [dinsert, dlookup, h]
    · simp [dinsert, dlookup, h2, ih]

theorem dlookup_dremove_ne (d : Dict K V) (k k' : K) (h : k ≠ k') :
    dlookup (dremove d k) k' = dlookup d k' := by
  induction d with
  | nil => simp [dremove]
  | cons p rest ih =>
    obtain ⟨k'', v''⟩ := p
    by_cases h2 : k'' = k
    · subst h2
      simp [dremove, dlookup, h]
    · simp [dremove, dlookup, h2, ih]

theorem dlookup_eq_none_of_not_mem_keys (d : Dict K V) (k : K)
    (h : k ∉ keysOf d) : dlookup d k = none := by
  induction d with
  | nil => rfl
  | cons p rest ih =>
    simp only [keysOf, List.map_cons, List.mem_cons] at h
    push_neg at h
    obtain ⟨k', v'⟩ := p
    simp only [dlookup]
    rw [if_neg (fun hk => h.1 hk.symm)]
    exact ih h.2

theorem dlookup_dremove_self (d : Dict K V) (k : K) (hwf : WF d) :
    dlookup (dremove d k) k = none := by
  induction d with
  | nil => rfl
  | cons p rest ih =>
    obtain ⟨k', v'⟩ := p
    simp only [WF, keysOf, List.map_cons, List.nodup_cons] at hwf
    by_cases h2 : k' = k
    · subst h2
      simp only [dremove, if_pos rfl]
      exact dlookup_eq_none_of_not_mem_keys rest k' (by
        simpa [keysOf] using hwf.1)
    · simp only [dremove, if_neg h2, dlookup, if_neg h2]
      exact ih hwf.2

theorem dlookup_dmerge (d F : Dict K V) (k : K) (hF : (keysOf F).Nodup) :
    dlookup (dmerge d F) k =
      match dlookup F k with
      | some v => some v
      | none => dlookup d k := by
  induction F generalizing d with
  | nil => simp [dmerge, dlookup]
  | cons p rest ih =>
    obtain ⟨kf, vf⟩ := p
    simp only [keysOf, List.map_cons, List.nodup_cons] at hF
    have step : dmerge d ((kf, vf) :: rest) = dmerge (dinsert d kf vf) rest := rfl
    rw [step, ih (dinsert d kf vf) hF.2]
    by_cases hk : kf = k
    · subst hk
      have : dlookup rest kf = none :=
        dlookup_eq_none_of_not_mem_keys rest kf (by simpa [keysOf] using hF.1)
      simp [dlookup, this, dlookup_dinsert_self]
    · simp only [dlookup, if_neg hk]
      cases h : dlookup rest k with
      | some v => simp
      | none => simp [dlookup_dinsert_ne d kf k vf hk]

end Dict

theorem mem_insert_foldr (l : List Nat) (acc : Finset Nat) (x : Nat) :
    x ∈ l.foldr insert acc ↔ x ∈ l ∨ x ∈ acc := by
  induction l with
  | nil => simp
  | cons a t ih => simp [ih, or_assoc]

theorem mem_mentioned (s : WorkflowSchema) (x : Nat) :
    x ∈ mentioned s ↔
      x = s.start ∨ ∃ nc ∈ s.nodes, x = nc.node ∨ x ∈ nc.connections := by
  unfold mentioned
  rw [Finset.mem_insert]
  apply or_congr Iff.rfl
  induction s.nodes with
  | nil => simp
  | cons nc t ih =>
    simp only [List.foldr_cons, Finset.mem_insert, mem_insert_foldr, ih]
    constructor
    · rintro (rfl | h | h)
      · exact ⟨nc, List.mem_cons_self _ _, Or.inl rfl⟩
      · exact ⟨nc, List.mem_cons_self _ _, Or.inr h⟩
      · obtain ⟨nc', hm, hh⟩ := h
        exact ⟨nc', List.mem_cons_of_mem _ hm, hh⟩
    · rintro ⟨nc', hm, hh⟩
      rcases List.mem_cons.mp hm with rfl | hm'
      · rcases hh with rfl | hh
        · exact Or.inl rfl
        · exact Or.inr (Or.inl hh)
      · exact Or.inr (Or.inr ⟨nc', hm', hh⟩)

theorem start_mem_mentioned (s : WorkflowSchema) : s.start ∈ mentioned s :=
  (mem_mentioned s _).mpr (Or.inl rfl)

theorem mem_allNodes (s : WorkflowSchema) (x : Nat) :
    x ∈ allNodes s ↔ ∃ nc ∈ s.nodes, nc.node = x := by
  unfold allNodes
  induction s.nodes with
  | nil => simp
  | cons nc t ih =>
    simp only [List.foldr_cons, Finset.mem_insert, ih]
    constructor
    · rintro (rfl | ⟨nc', hm, rfl⟩)
      · exact ⟨nc, List.mem_cons_self _ _, rfl⟩
      · exact ⟨nc', List.mem_cons_of_mem _ hm, rfl⟩
    · rintro ⟨nc', hm, rfl⟩
      rcases List.mem_cons.mp hm with rfl | hm'
      · exact Or.inl rfl
      · exact Or.inr ⟨nc', hm', rfl⟩

theorem findConfig_mem {s : WorkflowSchema} {n : Nat} {nc : NodeConfig}
    (h : findConfig s n = some nc) : nc ∈ s.nodes ∧ nc.node = n := by
  refine ⟨List.mem_of_find?_eq_some h, ?_⟩
  have := List.find?_some h
  simpa using this

theorem succs_subset_mentioned (s : WorkflowSchema) (n : Nat) :
    ∀ y ∈ succs s n, y ∈ mentioned s := by
  intro y hy
  unfold succs at hy
  cases hfc : findConfig s n with
  | none => rw [hfc] at hy; simp at hy
  | some nc =>
    rw [hfc] at hy
    obtain ⟨hm, _⟩ := findConfig_mem hfc
    exact (mem_mentioned s y).mpr (Or.inr ⟨nc, hm, Or.inr hy⟩)

theorem allNodes_subset_mentioned (s : WorkflowSchema) :
    ∀ x ∈ allNodes s, x ∈ mentioned s := by
  intro x hx
  obtain ⟨nc, hm, rfl⟩ := (mem_allNodes s x).mp hx
  exact (mem_mentioned s _).mpr (Or.inr ⟨nc, hm, Or.inl rfl⟩)

theorem succs_length_le_totalConn (s : WorkflowSchema) (n : Nat) :
    (succs s n).length ≤ totalConn s := by
  unfold succs
  cases hfc : findConfig s n with
  | none => simp [totalConn]
  | some nc =>
    obtain ⟨hm, _⟩ := findConfig_mem hfc
    exact List.single_le_sum (fun x _ => Nat.zero_le x) _
      (List.mem_map_of_mem _ hm)

theorem edge_configured {s : WorkflowSchema} {x y : Nat} (h : Edge s x y) :
    x ∈ allNodes s := by
  unfold Edge succs at h
  cases hfc : findConfig s x with
  | none => rw [hfc] at h; simp at h
  | some nc =>
    obtain ⟨hm, hn⟩ := findConfig_mem hfc
    exact (mem_allNodes s x).mpr ⟨nc, hm, hn⟩

theorem bfsAux_sound (s : WorkflowSchema) (fuel : Nat) :
    ∀ queue reach, (∀ x ∈ queue, SpecReachable s x) →
      (∀ x ∈ reach, SpecReachable s x) →
      ∀ x ∈ bfsAux s fuel queue reach, SpecReachable s x := by
  induction fuel with
  | zero => intro queue reach _ hr; exact hr
  | succ fuel ih =>
    intro queue reach hq hr
    cases queue with
    | nil => exact hr
    | cons q qs =>
      by_cases hqr : q ∈ reach
      · rw [bfsAux, if_pos hqr]
        exact ih qs reach (fun x hx => hq x (List.mem_cons_of_mem _ hx)) hr
      · rw [bfsAux, if_neg hqr]
        have hqreach : SpecReachable s q := hq q (List.mem_cons_self _ _)
        refine ih (qs ++ succs s q) (insert q reach) ?_ ?_
        · intro x hx
          rcases List.mem_append.mp hx with h1 | h2
          · exact hq x (List.mem_cons_of_mem _ h1)
          · exact Relation.ReflTransGen.tail hqreach h2
        · intro x hx
          rcases Finset.mem_insert.mp hx with rfl | hx'
          · exact hqreach
          · exact hr x hx'

theorem bfsAux_complete (s : WorkflowSchema) (fuel : Nat) :
    ∀ queue reach,
      queue.length + (mentioned s \ reach).card * (1 + totalConn s) < fuel →
      (∀ x ∈ queue, x ∈ mentioned s) →
      (∀ x ∈ reach, ∀ y ∈ succs s x, y ∈ reach ∨ y ∈ queue) →
      (∀ x ∈ reach, x ∈ bfsAux s fuel queue reach) ∧
      (∀ x ∈ queue, x ∈ bfsAux s fuel queue reach) ∧
      (∀ x ∈ bfsAux s fuel queue reach, ∀ y ∈ succs s x,
        y ∈ bfsAux s fuel queue reach) := by
  induction fuel with
  | zero => intro queue reach hfuel _ _; omega
  | succ fuel ih =>
    intro queue reach hfuel hq hcl
    cases queue with
    | nil =>
      refine ⟨fun x hx => hx, by simp, ?_⟩
      intro x hx y hy
      rcases hcl x hx y hy with h | h
      · exact h
      · simp at h
    | cons q qs =>
      by_cases hqr : q ∈ reach
      · rw [bfsAux, if_pos hqr]
        have := ih qs reach (by simp at hfuel; omega)
          (fun x hx => hq x (List.mem_cons_of_mem _ hx))
          (fun x hx y hy => by
            rcases hcl x hx y hy with h | h
            · exact Or.inl h
            · rcases List.mem_cons.mp h with rfl | h2
              · exact Or.inl hqr
              · exact Or.inr h2)
        refine ⟨this.1, ?_, this.2.2⟩
        intro x hx
        rcases List.mem_cons.mp hx with rfl | h2
        · exact this.1 x hqr
        · exact this.2.1 x h2
      · rw [bfsAux, if_neg hqr]
        have hqm : q ∈ mentioned s := hq q (List.mem_cons_self _ _)
        have hcard : (mentioned s \ insert q reach).card + 1
            = (mentioned s \ reach).card := by
          rw [Finset.sdiff_insert]
          rw [Finset.card_erase_of_mem (Finset.mem_sdiff.mpr ⟨hqm, hqr⟩)]
          have : 0 < (mentioned s \ reach).card :=
            Finset.card_pos.mpr ⟨q, Finset.mem_sdiff.mpr ⟨hqm, hqr⟩⟩
          omega
        have hsl : (succs s q).length ≤ totalConn s :=
          succs_length_le_totalConn s q
        have hfuel' : (qs ++ succs s q).length
            + (mentioned s \ insert q reach).card * (1 + totalConn s) < fuel := by
          rw [List.length_append]
          simp only [List.length_cons] at hfuel
          nlinarith [hcard, hsl, hfuel]
        have := ih (qs ++ succs s q) (insert q reach) hfuel'
          (fun x hx => by
            rcases List.mem_append.mp hx with h1 | h2
            · exact hq x (List.mem_cons_of_mem _ h1)
            · exact succs_subset_mentioned s q x h2)
          (fun x hx y hy => by
            rcases Finset.mem_insert.mp hx with rfl | hx'
            · exact Or.inr (List.mem_append.mpr (Or.inr hy))
            · rcases hcl x hx' y hy with h | h
              · exact Or.inl (Finset.mem_insert_of_mem h)
              · rcases List.mem_cons.mp h with rfl | h2
                · exact Or.inl (Finset.mem_insert_self _ _)
                · exact Or.inr (List.mem_append.mpr (Or.inl h2)))
        refine ⟨?_, ?_, this.2.2⟩
        · intro x hx
          exact this.1 x (Finset.mem_insert_of_mem hx)
        · intro x hx
          rcases List.mem_cons.mp hx with rfl | h2
          · exact this.1 x (Finset.mem_insert_self _ _)
          · exact this.2.1 x (List.mem_append.mpr (Or.inl h2))

theorem mem_reachableSet_iff (s : WorkflowSchema) (x : Nat) :
    x ∈ reachableSet s ↔ SpecReachable s x := by
  constructor
  · intro hx
    refine bfsAux_sound s (bfsFuel s) [s.start] ∅ ?_ (by simp) x hx
    intro y hy
    rcases List.mem_cons.mp hy with rfl | h
    · exact Relation.ReflTransGen.refl
    · simp at h
  · intro hx
    have hcomp := bfsAux_complete s (bfsFuel s) [s.start] ∅
      (by
        unfold bfsFuel
        simp only [List.length_cons, List.length_nil, Finset.sdiff_empty]
        nlinarith [(mentioned s).card.zero_le, (totalConn s).zero_le])
      (by
        intro y hy
        rcases List.mem_cons.mp hy with rfl | h
        · exact start_mem_mentioned s
        · simp at h)
      (by simp)
    have hstart : s.start ∈ reachableSet s :=
      hcomp.2.1 s.start (List.mem_cons_self _ _)
    unfold SpecReachable at hx
    induction hx with
    | refl => exact hstart
    | tail hab hbc ihx => exact hcomp.2.2 _ ihx _ hbc

theorem stackOK_reaches (s : WorkflowSchema) :
    ∀ t h x, StackOK s (h :: t) → x ∈ h :: t →
      Relation.ReflTransGen (Edge s) x h := by
  intro t
  induction t with
  | nil =>
    intro h x _ hx
    rcases List.mem_cons.mp hx with rfl | hx'
    · exact Relation.ReflTransGen.refl
    · simp at hx'
  | cons b rest ih =>
    intro h x hst hx
    obtain ⟨he, hst'⟩ := hst
    rcases List.mem_cons.mp hx with rfl | hx'
    · exact Relation.ReflTransGen.refl
    · exact Relation.ReflTransGen.tail (ih b x hst' hx') he

theorem dfsList_sound (s : WorkflowSchema)
    (child : Nat → Finset Nat → Finset Nat × Bool) (top : Nat) (srest : List Nat)
    (hst : StackOK s (top :: srest)) :
    ∀ nbs vis vis', (∀ nb ∈ nbs, Edge s top nb) →
      (∀ nb ∈ nbs, ∀ v r, child nb v = (r, true) → SpecHasCycle s) →
      dfsList child (top :: srest) nbs vis = (vis', true) → SpecHasCycle s := by
  intro nbs
  induction nbs with
  | nil =>
    intro vis vis' _ _ h
    simp [dfsList] at h
  | cons nb rest ih =>
    intro vis vis' hnbs hc h
    rw [dfsList] at h
    by_cases h1 : nb ∈ vis
    · rw [if_pos h1] at h
      by_cases h2 : nb ∈ top :: srest
      · refine ⟨nb, ?_⟩
        exact Relation.TransGen.tail'
          (stackOK_reaches s srest top nb hst h2)
          (hnbs nb (List.mem_cons_self _ _))
      · rw [if_neg h2] at h
        exact ih vis vis'
          (fun x hx => hnbs x (List.mem_cons_of_mem _ hx))
          (fun x hx => hc x (List.mem_cons_of_mem _ hx)) h
    · rw [if_neg h1] at h
      rcases hcv : child nb vis with ⟨v2, b⟩
      rw [hcv] at h
      cases b with
      | true => exact hc nb (List.mem_cons_self _ _) vis v2 hcv
      | false =>
        exact ih v2 vis'
          (fun x hx => hnbs x (List.mem_cons_of_mem _ hx))
          (fun x hx => hc x (List.mem_cons_of_mem _ hx)) h

theorem dfsVisit_sound (s : WorkflowSchema) :
    ∀ fuel n stack vis vis', StackOK s (n :: stack) →
      dfsVisit s fuel n stack vis = (vis', true) → SpecHasCycle s := by
  intro fuel
  induction fuel with
  | zero => intro n stack vis vis' _ h; simp [dfsVisit] at h
  | succ fuel ih =>
    intro n stack vis vis' hst h
    rw [dfsVisit] at h
    refine dfsList_sound s _ n stack hst (succs s n) (insert n vis) vis'
      (fun nb hnb => hnb) ?_ h
    intro nb hnb v r hcv
    refine ih nb (n :: stack) v r ?_ hcv
    cases stack with
    | nil => exact ⟨hnb, trivial⟩
    | cons a t => exact ⟨hnb, hst⟩

theorem hasCycleLoop_sound (s : WorkflowSchema) (fuel : Nat) :
    ∀ configs vis, hasCycleLoop s fuel configs vis = true → SpecHasCycle s := by
  intro configs
  induction configs with
  | nil => intro vis h; simp [hasCycleLoop] at h
  | cons nc rest ih =>
    intro vis h
    rw [hasCycleLoop] at h
    by_cases h1 : nc.node ∈ vis
    · rw [if_pos h1] at h
      exact ih vis h
    · rw [if_neg h1] at h
      rcases hcv : dfsVisit s fuel nc.node [] vis with ⟨v2, b⟩
      rw [hcv] at h
      cases b with
      | true => exact dfsVisit_sound s fuel nc.node [] vis v2 trivial hcv
      | false => exact ih v2 h

theorem layered_closed {s : WorkflowSchema} {L : List Nat} (hL : Layered s L) :
    ∀ x ∈ L, ∀ y ∈ succs s x, y ∈ L := by
  induction hL with
  | nil => simp
  | cons b L hb hsucc hL ih =>
    intro x hx y hy
    rcases List.mem_cons.mp hx with rfl | hx'
    · exact List.mem_cons_of_mem _ (hsucc y hy)
    · exact List.mem_cons_of_mem _ (ih x hx' y hy)

theorem rtg_stays {s : WorkflowSchema} {L : List Nat}
    (hcl : ∀ a ∈ L, ∀ b ∈ succs s a, b ∈ L) :
    ∀ x z, x ∈ L → Relation.ReflTransGen (Edge s) x z → z ∈ L := by
  intro x z hx hrtg
  induction hrtg with
  | refl => exact hx
  | tail hab hbc ih => exact hcl _ ih _ hbc

theorem layered_no_cycle {s : WorkflowSchema} {L : List Nat} (hL : Layered s L) :
    ∀ x ∈ L, ¬ Relation.TransGen (Edge s) x x := by
  induction hL with
  | nil => simp
  | cons b L hb hsucc hL ih =>
    intro x hx htg
    rcases List.mem_cons.mp hx with rfl | hx'
    · obtain ⟨y, hxy, hyx⟩ := Relation.TransGen.head'_iff.mp htg
      exact hb (rtg_stays (layered_closed hL) y x (hsucc y hxy) hyx)
    · exact ih x hx' htg

theorem dfsList_mono (child : Nat → Finset Nat → Finset Nat × Bool)
    (stack : List Nat) (hc : ∀ nb v, v ⊆ (child nb v).1) :
    ∀ nbs vis, vis ⊆ (dfsList child stack nbs vis).1 := by
  intro nbs
  induction nbs with
  | nil => intro vis; rw [dfsList]
  | cons nb rest ih =>
    intro vis
    rw [dfsList]
    by_cases h1 : nb ∈ vis
    · rw [if_pos h1]
      by_cases h2 : nb ∈ stack
      · rw [if_pos h2]
      · rw [if_neg h2]; exact ih vis
    · rw [if_neg h1]
      rcases hcv : child nb vis with ⟨v2, b⟩
      have hsub : vis ⊆ v2 := by
        have := hc nb vis
        rw [hcv] at this
        exact this
      cases b with
      | true => exact hsub
      | false => exact hsub.trans (ih v2)

theorem dfsVisit_mono (s : WorkflowSchema) :
    ∀ fuel n stack vis, vis ⊆ (dfsVisit s fuel n stack vis).1 := by
  intro fuel
  induction fuel with
  | zero => intro n stack vis; rw [dfsVisit]
  | succ fuel ih =>
    intro n stack vis
    rw [dfsVisit]
    exact (Finset.subset_insert n vis).trans
      (dfsList_mono _ _ (fun nb v => ih nb (n :: stack) v) (succs s n) (insert n vis))

theorem dfsList_false (s : WorkflowSchema) (fuelB : Nat)
    (child : Nat → Finset Nat → Finset Nat × Bool) (stack : List Nat)
    (hchild : ∀ nb v v2 L2, (mentioned s \ v).card < fuelB → nb ∈ mentioned s →
      nb ∉ v → BlackInv s stack v L2 → child nb v = (v2, false) →
      ∃ L3, BlackInv s stack v2 L3 ∧ nb ∈ L3 ∧ (∀ x ∈ L2, x ∈ L3) ∧ v ⊆ v2) :
    ∀ nbs vis L vis', (mentioned s \ vis).card < fuelB →
      (∀ x ∈ nbs, x ∈ mentioned s) → BlackInv s stack vis L →
      dfsList child stack nbs vis = (vis', false) →
      ∃ L', BlackInv s stack vis' L' ∧ (∀ x ∈ L, x ∈ L') ∧
        (∀ nb ∈ nbs, nb ∈ vis' ∧ nb ∉ stack) ∧ vis ⊆ vis' := by
  intro nbs
  induction nbs with
  | nil =>
    intro vis L vis' _ _ hinv h
    rw [dfsList] at h
    injection h with h1 h2
    subst h1
    exact ⟨L, hinv, fun x hx => hx, by simp, subset_rfl⟩
  | cons nb rest ih =>
    intro vis L vis' hfb hnbs hinv h
    rw [dfsList] at h
    by_cases h1 : nb ∈ vis
    · rw [if_pos h1] at h
      by_cases h2 : nb ∈ stack
      · rw [if_pos h2] at h
        exact absurd (congrArg Prod.snd h) (by simp)
      · rw [if_neg h2] at h
        obtain ⟨L', hinv', hLL', hrest, hsub⟩ :=
          ih vis L vis' hfb (fun x hx => hnbs x (List.mem_cons_of_mem _ hx)) hinv h
        refine ⟨L', hinv', hLL', ?_, hsub⟩
        intro x hx
        rcases List.mem_cons.mp hx with rfl | hx'
        · exact ⟨hsub h1, h2⟩
        · exact hrest x hx'
    · rw [if_neg h1] at h
      rcases hcv : child nb vis with ⟨v2, b⟩
      rw [hcv] at h
      cases b with
      | true => exact absurd (congrArg Prod.snd h) (by simp)
      | false =>
        obtain ⟨L3, hinv3, hnb3, hLL3, hsub3⟩ :=
          hchild nb vis v2 L hfb (hnbs nb (List.mem_cons_self _ _)) h1 hinv hcv
        have hfb2 : (mentioned s \ v2).card < fuelB :=
          lt_of_le_of_lt (Finset.card_le_card (Finset.sdiff_subset_sdiff
            subset_rfl hsub3)) hfb
        obtain ⟨L', hinv', hLL', hrest, hsub⟩ :=
          ih v2 L3 vis' hfb2 (fun x hx => hnbs x (List.mem_cons_of_mem _ hx)) hinv3 h
        refine ⟨L', hinv', fun x hx => hLL' x (hLL3 x hx), ?_, hsub3.trans hsub⟩
        intro x hx
        rcases List.mem_cons.mp hx with rfl | hx'
        · have hxL' : x ∈ L' := hLL' x hnb3
          refine ⟨(hinv'.2.1 x).mpr (Or.inr hxL'), ?_⟩
          intro hxs
          exact hinv'.2.2 x hxs hxL'
        · exact hrest x hx'

theorem dfsVisit_false (s : WorkflowSchema) :
    ∀ fuel n stack vis L vis', (mentioned s \ vis).card < fuel →
      n ∈ mentioned s → n ∉ vis → BlackInv s stack vis L →
      dfsVisit s fuel n stack vis = (vis', false) →
      ∃ L', BlackInv s stack vis' L' ∧ n ∈ L' ∧ (∀ x ∈ L, x ∈ L') ∧ vis ⊆ vis' := by
  intro fuel
  induction fuel with
  | zero => intro n stack vis L vis' hfuel _ _ _ _; omega
  | succ fuel ih =>
    intro n stack vis L vis' hfuel hnm hnv hinv h
    rw [dfsVisit] at h
    have hinv2 : BlackInv s (n :: stack) (insert n vis) L := by
      obtain ⟨hlay, hiff, hdisj⟩ := hinv
      refine ⟨hlay, ?_, ?_⟩
      · intro x
        rw [Finset.mem_insert, hiff x, List.mem_cons]
        tauto
      · intro x hx
        rcases List.mem_cons.mp hx with rfl | hx'
        · intro hxL
          exact hnv ((hiff x).mpr (Or.inr hxL))
        · exact hdisj x hx'
    have hfb : (mentioned s \ insert n vis).card < fuel := by
      have hcard : (mentioned s \ insert n vis).card + 1
          = (mentioned s \ vis).card := by
        rw [Finset.sdiff_insert]
        rw [Finset.card_erase_of_mem (Finset.mem_sdiff.mpr ⟨hnm, hnv⟩)]
        have : 0 < (mentioned s \ vis).card :=
          Finset.card_pos.mpr ⟨n, Finset.mem_sdiff.mpr ⟨hnm, hnv⟩⟩
        omega
      omega
    obtain ⟨L3, hinv3, hLL3, hsuccs, hsub⟩ :=
      dfsList_false s fuel _ (n :: stack)
        (fun nb v v2 L2 hf hm hnv2 hi hc => ih nb (n :: stack) v L2 v2 hf hm hnv2 hi hc)
        (succs s n) (insert n vis) L vis' hfb
        (succs_subset_mentioned s n) hinv2 h
    have hnL3 : n ∉ L3 := hinv3.2.2 n (List.mem_cons_self _ _)
    have hnvis' : n ∈ vis' := hsub (Finset.mem_insert_self n vis)
    refine ⟨n :: L3, ?_, List.mem_cons_self _ _, ?_, ?_⟩
    · obtain ⟨hlay3, hiff3, hdisj3⟩ := hinv3
      refine ⟨Layered.cons n L3 hnL3 ?_ hlay3, ?_, ?_⟩
      · intro y hy
        have := hsuccs y hy
        rcases (hiff3 y).mp this.1 with hstk | hL3
        · exact absurd hstk this.2
        · exact hL3
      · intro x
        rw [hiff3 x, List.mem_cons, List.mem_cons]
        tauto
      · intro x hx
        rw [List.mem_cons]
        push_neg
        constructor
        · rintro rfl
          exact hnv ((hinv.2.1 x).mpr (Or.inl hx))
        · exact hdisj3 x (List.mem_cons_of_mem _ hx)
    · intro x hx
      exact List.mem_cons_of_mem _ (hLL3 x hx)
    · exact (Finset.subset_insert n vis).trans hsub

theorem hasCycleLoop_false (s : WorkflowSchema) :
    ∀ configs vis L, BlackInv s [] vis L →
      hasCycleLoop s (dfsFuel s) configs vis = false →
      (∀ nc ∈ configs, nc.node ∈ mentioned s) →
      ∃ L', Layered s L' ∧ (∀ x ∈ L, x ∈ L') ∧
        ∀ nc ∈ configs, nc.node ∈ L' := by
  intro configs
  induction configs with
  | nil =>
    intro vis L hinv _ _
    exact ⟨L, hinv.1, fun x hx => hx, by simp⟩
  | cons nc rest ih =>
    intro vis L hinv h hm
    rw [hasCycleLoop] at h
    by_cases h1 : nc.node ∈ vis
    · rw [if_pos h1] at h
      obtain ⟨L', hlay', hLL', hrest⟩ :=
        ih vis L hinv h (fun x hx => hm x (List.mem_cons_of_mem _ hx))
      refine ⟨L', hlay', hLL', ?_⟩
      intro nc' hnc'
      rcases List.mem_cons.mp hnc' with rfl | hx'
      · rcases (hinv.2.1 nc'.node).mp h1 with hstk | hL
        · simp at hstk
        · exact hLL' _ hL
      · exact hrest nc' hx'
    · rw [if_neg h1] at h
      rcases hcv : dfsVisit s (dfsFuel s) nc.node [] vis with ⟨v2, b⟩
      rw [hcv] at h
      cases b with
      | true => simp at h
      | false =>
        have hfuel : (mentioned s \ vis).card < dfsFuel s := by
          unfold dfsFuel
          have := Finset.card_le_card (Finset.sdiff_subset (s := mentioned s) (t := vis))
          omega
        obtain ⟨L3, hinv3, hn3, hLL3, _⟩ :=
          dfsVisit_false s (dfsFuel s) nc.node [] vis L v2 hfuel
            (hm nc (List.mem_cons_self _ _)) h1 hinv hcv
        obtain ⟨L', hlay', hLL', hrest⟩ :=
          ih v2 L3 hinv3 h (fun x hx => hm x (List.mem_cons_of_mem _ hx))
        refine ⟨L', hlay', fun x hx => hLL' x (hLL3 x hx), ?_⟩
        intro nc' hnc'
        rcases List.mem_cons.mp hnc' with rfl | hx'
        · exact hLL' _ hn3
        · exact hrest nc' hx'

theorem has_cycle_iff (s : WorkflowSchema) :
    has_cycle s = true ↔ SpecHasCycle s := by
  constructor
  · exact hasCycleLoop_sound s (dfsFuel s) s.nodes ∅
  · intro hcy
    by_contra hfalse
    have hfc : has_cycle s = false := by
      cases hb : has_cycle s
      · rfl
      · exact absurd hb hfalse
    obtain ⟨L', hlay', _, hall⟩ :=
      hasCycleLoop_false s s.nodes ∅ [] ⟨Layered.nil, by simp, by simp⟩ hfc
        (fun nc hnc => (mem_mentioned s nc.node).mpr (Or.inr ⟨nc, hnc, Or.inl rfl⟩))
    obtain ⟨x, htg⟩ := hcy
    obtain ⟨y, hxy, _⟩ := Relation.TransGen.head'_iff.mp htg
    obtain ⟨nc, hnc, hncx⟩ := (mem_allNodes s x).mp (edge_configured hxy)
    exact layered_no_cycle hlay' x (hncx ▸ hall nc hnc) htg

theorem validateConnections_ok_iff (l : List NodeConfig) :
    validateConnections l = .ok () ↔
      ∀ nc ∈ l, ¬(nc.connections.length > 1 ∧ nc.is_router = false) := by
  induction l with
  | nil => simp [validateConnections]
  | cons nc rest ih =>
    rw [validateConnections]
    by_cases h : nc.connections.length > 1 ∧ nc.is_router = false
    · rw [if_pos (by simp [h.1, h.2])]
      simp only [List.mem_cons]
      constructor
      · intro hbad; exact Except.noConfusion hbad
      · intro hall; exact absurd h (hall nc (Or.inl rfl))
    · rw [if_neg (by
        intro hb
        simp only [Bool.and_eq_true, decide_eq_true_eq, Bool.not_eq_true'] at hb
        exact h ⟨hb.1, hb.2⟩)]
      rw [ih]
      constructor
      · intro hall nc' hnc'
        rcases List.mem_cons.mp hnc' with rfl | hm
        · exact h
        · exact hall nc' hm
      · intro hall nc' hm
        exact hall nc' (List.mem_cons_of_mem _ hm)

theorem unreach_empty_iff (s : WorkflowSchema) :
    allNodes s \ reachableSet s = ∅ ↔ ∀ n ∈ allNodes s, SpecReachable s n := by
  rw [Finset.sdiff_eq_empty_iff_subset]
  constructor
  · intro hsub n hn
    exact (mem_reachableSet_iff s n).mp (hsub hn)
  · intro hall n hn
    exact (mem_reachableSet_iff s n).mpr (hall n hn)

/-- Claim C1: `validate` raises an error if and only if the schema's
successor graph contains a cycle, some configured node is unreachable
from the start node, or some node config declares more than one
successor while `is_router` is false; consequently, for every acyclic,
fully reachable schema with correct router arity, `validate` succeeds
without raising. -/
theorem validate_raises_iff (s : WorkflowSchema) :
    (∃ e, validate s = .error e) ↔
      SpecHasCycle s ∨ (∃ n ∈ allNodes s, ¬SpecReachable s n) ∨
        (∃ nc ∈ s.nodes, nc.connections.length > 1 ∧ nc.is_router = false) := by
  unfold validate
  by_cases hc : has_cycle s
  · rw [if_pos hc]
    exact iff_of_true ⟨.cycle, rfl⟩ (Or.inl ((has_cycle_iff s).mp hc))
  · rw [if_neg hc]
    have hnocy : ¬SpecHasCycle s := fun h => hc ((has_cycle_iff s).mpr h)
    by_cases hu : allNodes s \ reachableSet s = ∅
    · rw [if_pos hu]
      have hreach := (unreach_empty_iff s).mp hu
      constructor
      · rintro ⟨e, he⟩
        refine Or.inr (Or.inr ?_)
        by_contra hno
        push_neg at hno
        have : validateConnections s.nodes = .ok () := by
          rw [validateConnections_ok_iff]
          intro nc hnc hbad
          exact absurd hbad.2 (by
            have := hno nc hnc hbad.1
            simp [this])
        rw [this] at he
        exact Except.noConfusion he
      · rintro (h | h | h)
        · exact absurd h hnocy
        · obtain ⟨n, hn, hnR⟩ := h
          exact absurd (hreach n hn) hnR
        · obtain ⟨nc, hnc, hbad⟩ := h
          cases hv : validateConnections s.nodes with
          | error e => exact ⟨e, rfl⟩
          | ok u =>
            cases u
            rw [validateConnections_ok_iff] at hv
            exact absurd hbad (hv nc hnc)
    · rw [if_neg hu]
      refine iff_of_true ⟨_, rfl⟩ (Or.inr (Or.inl ?_))
      by_contra hno
      push_neg at hno
      exact hu ((unreach_empty_iff s).mpr hno)

/-- Claim C7 (amended): for every acyclic schema in which some configured
node is not reachable from the start node, `validate` fails with an
error naming exactly the set of configured nodes outside the
BFS-computed reachable set, and that set is exactly the configured
nodes that are not reachable via successor edges.  The amendment adds
the acyclicity premise: the cycle check runs first, so a schema that
also has a cycle fails with the cycle error instead (see the
counterexample). -/
theorem validate_names_unreachable (s : WorkflowSchema)
    (hnc : ¬SpecHasCycle s) (hex : ∃ n ∈ allNodes s, ¬SpecReachable s n) :
    validate s = .error (.unreachable (allNodes s \ reachableSet s)) ∧
      ∀ n, n ∈ allNodes s \ reachableSet s ↔
        n ∈ allNodes s ∧ ¬SpecReachable s n := by
  have hc : has_cycle s = false := by
    cases hb : has_cycle s
    · rfl
    · exact absurd ((has_cycle_iff s).mp hb) hnc
  have hu : allNodes s \ reachableSet s ≠ ∅ := by
    intro he
    obtain ⟨n, hn, hnR⟩ := hex
    exact hnR ((unreach_empty_iff s).mp he n hn)
  constructor
  · unfold validate
    rw [hc]
    simp only [Bool.false_eq_true, if_false]
    rw [if_neg hu]
  · intro n
    rw [Finset.mem_sdiff]
    exact and_congr_right (fun _ => (mem_reachableSet_iff s n).not)

theorem routeFirst_first_match {V : Type} (pre post : List (TaskContext V → Option Nat))
    (rule : TaskContext V → Option Nat) (ctx : TaskContext V) (x : Nat)
    (hpre : ∀ r ∈ pre, r ctx = none) (hr : rule ctx = some x) :
    routeFirst (pre ++ rule :: post) ctx = some x := by
  induction pre with
  | nil => simp [routeFirst, hr]
  | cons p rest ih =>
    rw [List.cons_append, routeFirst, hpre p (List.mem_cons_self _ _)]
    exact ih (fun r hrr => hpre r (List.mem_cons_of_mem _ hrr))

theorem routeFirst_all_none {V : Type} (rs : List (TaskContext V → Option Nat))
    (ctx : TaskContext V) (h : ∀ r ∈ rs, r ctx = none) :
    routeFirst rs ctx = none := by
  induction rs with
  | nil => rfl
  | cons r rest ih =>
    rw [routeFirst, h r (List.mem_cons_self _ _)]
    exact ih (fun r' hr' => h r' (List.mem_cons_of_mem _ hr'))

theorem getNext_events_routed {V : Type} (M : EngineModel V) (c : Nat)
    (ctx : TaskContext V) :
    ∀ e ∈ (getNextNodeClass M c ctx).2, e = Ev.routed c (route M c ctx) := by
  intro e he
  unfold getNextNodeClass at he
  split at he
  · simp at he
  · split at he
    · simp at he
    · split at he
      · simpa using he
      · simp at he

/-- Claim C5: when a node body raises, the exception propagates
synchronously to the caller of the loop: the body is invoked exactly
once (no automatic retry), the run aborts carrying the context exactly
as the body left it (no rollback), and the error is logged with the
node identity (the `logError` event) before the `node_context` scope
closes and the exception re-raises. -/
theorem exception_propagation {V : Type} (M : EngineModel V)
    (cfgs : Dict Nat NodeConfig) (fuel : Nat) (c : Nat)
    (ctx ctx' : TaskContext V) (cfg : NodeConfig) (msg : String)
    (h1 : ctx.should_stop = false) (h2 : dlookup cfgs c = some cfg)
    (h3 : M.isRouterClass c = false) (h4 : M.bodies c ctx = (ctx', some msg)) :
    runLoop M cfgs (fuel + 1) (some c) ctx =
      ([.logStart c, .proc c ctx, .logError c, .logFinish c],
        .error (.nodeErr c msg ctx')) := by
  rw [runLoop, if_neg (by simp [h1]), h2]
  unfold bodyPhase
  rw [if_neg (by simp [h3]), h4]

/-- Claim C3: when the node about to execute sets the stop flag during
its process, that node runs to completion (exactly one `proc` event, its
own, appears in the rest of the run: the flag is sampled only at the
next loop boundary), no node after it executes, and the run terminates
with the returned context being exactly the stopping node's output with
the transient node-map metadata entry stripped. -/
theorem stop_semantics {V : Type} (M : EngineModel V)
    (cfgs : Dict Nat NodeConfig) (fuel : Nat) (c : Nat)
    (ctx ctx' : TaskContext V) (cfg : NodeConfig)
    (h1 : ctx.should_stop = false) (h2 : dlookup cfgs c = some cfg)
    (h3 : M.isRouterClass c = false) (h4 : M.bodies c ctx = (ctx', none))
    (h5 : ctx'.should_stop = true)
    (h6 : dcontains ctx'.metadata "nodes" = true) :
    (∃ st, runLoop M cfgs (fuel + 2) (some c) ctx =
      ([.logStart c, .proc c ctx, .logFinish c] ++ (getNextNodeClass M c ctx').2,
        .ok ({ ctx' with metadata := dremove ctx'.metadata "nodes" }, st))) ∧
    ∀ m pre, Ev.proc m pre ∈ (runLoop M cfgs (fuel + 2) (some c) ctx).1 →
      m = c ∧ pre = ctx := by
  have hstep : runLoop M cfgs (fuel + 2) (some c) ctx =
      ([.logStart c, .proc c ctx, .logFinish c] ++ (getNextNodeClass M c ctx').2
        ++ (runLoop M cfgs (fuel + 1) (getNextNodeClass M c ctx').1 ctx').1,
       (runLoop M cfgs (fuel + 1) (getNextNodeClass M c ctx').1 ctx').2) := by
    rw [runLoop, if_neg (by simp [h1]), h2]
    unfold bodyPhase
    rw [if_neg (by simp [h3]), h4]
  have hterm : runLoop M cfgs (fuel + 1) (getNextNodeClass M c ctx').1 ctx' =
      ([], .ok ({ ctx' with metadata := dremove ctx'.metadata "nodes" },
        if (getNextNodeClass M c ctx').1 = none then .completed else .stopped)) := by
    cases hnx : (getNextNodeClass M c ctx').1 with
    | none =>
      rw [runLoop]
      unfold finishRun
      rw [if_pos h6]
      simp
    | some c2 =>
      rw [runLoop, if_pos h5]
      unfold finishRun
      rw [if_pos h6]
      simp
  constructor
  · refine ⟨if (getNextNodeClass M c ctx').1 = none then .completed else .stopped, ?_⟩
    rw [hstep, hterm]
    simp
  · intro m pre hm
    rw [hstep] at hm
    simp only [List.append_assoc, List.mem_append] at hm
    rcases hm with h | h | h
    · simp only [List.mem_cons] at h
      rcases h with h | h | h | h
      · exact absurd h (by simp)
      · injection h with hmc hpre
        exact ⟨hmc, hpre⟩
      · exact absurd h (by simp)
      · simp at h
    · have := getNext_events_routed M c ctx' _ h
      exact absurd this (by simp)
    · rw [hterm] at h
      simp at h

theorem bodyPhase_router {V : Type} (M : EngineModel V) (c : Nat)
    (ctx : TaskContext V) (h3 : M.isRouterClass c = true) :
    bodyPhase M c ctx = ([.logStart c, .logFinish c], .ok ctx) := by
  unfold bodyPhase
  rw [if_pos h3]

theorem bodyPhase_ok {V : Type} (M : EngineModel V) (c : Nat)
    (ctx ctx' : TaskContext V) (h3 : M.isRouterClass c = false)
    (h4 : M.bodies c ctx = (ctx', none)) :
    bodyPhase M c ctx = ([.logStart c, .proc c ctx, .logFinish c], .ok ctx') := by
  unfold bodyPhase
  rw [if_neg (by simp [h3]), h4]

theorem bodyPhase_err {V : Type} (M : EngineModel V) (c : Nat)
    (ctx ctx' : TaskContext V) (msg : String) (h3 : M.isRouterClass c = false)
    (h4 : M.bodies c ctx = (ctx', some msg)) :
    bodyPhase M c ctx = ([.logStart c, .proc c ctx, .logError c, .logFinish c],
      .error (.nodeErr c msg ctx')) := by
  unfold bodyPhase
  rw [if_neg (by simp [h3]), h4]

theorem runLoop_step_ok {V : Type} (M : EngineModel V) (cfgs : Dict Nat NodeConfig)
    (fuel : Nat) (c : Nat) (ctx ctx' : TaskContext V) (cfg : NodeConfig)
    (ev1 : List (Ev V)) (h1 : ctx.should_stop = false)
    (h2 : dlookup cfgs c = some cfg)
    (hb : bodyPhase M c ctx = (ev1, .ok ctx')) :
    runLoop M cfgs (fuel + 1) (some c) ctx =
      (ev1 ++ (getNextNodeClass M c ctx').2
          ++ (runLoop M cfgs fuel (getNextNodeClass M c ctx').1 ctx').1,
        (runLoop M cfgs fuel (getNextNodeClass M c ctx').1 ctx').2) := by
  rw [runLoop, if_neg (by simp [h1]), h2, hb]

theorem runLoop_step_err {V : Type} (M : EngineModel V) (cfgs : Dict Nat NodeConfig)
    (fuel : Nat) (c : Nat) (ctx : TaskContext V) (cfg : NodeConfig)
    (ev1 : List (Ev V)) (e : EngErr V) (h1 : ctx.should_stop = false)
    (h2 : dlookup cfgs c = some cfg)
    (hb : bodyPhase M c ctx = (ev1, .error e)) :
    runLoop M cfgs (fuel + 1) (some c) ctx = (ev1, .error e) := by
  rw [runLoop, if_neg (by simp [h1]), h2, hb]

theorem getNext_router {V : Type} (M : EngineModel V) (c : Nat)
    (ctx : TaskContext V) (cfg' : NodeConfig) (hd : Nat) (tl : List Nat)
    (h4 : findConfig M.schema c = some cfg')
    (h5 : cfg'.is_router = true) (h6 : cfg'.connections = hd :: tl) :
    getNextNodeClass M c ctx = (route M c ctx, [.routed c (route M c ctx)]) := by
  obtain ⟨n0, cs, ir, cn⟩ := cfg'
  simp only at h5 h6
  subst h5
  subst h6
  unfold getNextNodeClass
  rw [h4]
  rfl

theorem getNext_task {V : Type} (M : EngineModel V) (c : Nat)
    (ctx : TaskContext V) (cfg' : NodeConfig) (hd : Nat) (tl : List Nat)
    (h4 : findConfig M.schema c = some cfg')
    (h5 : cfg'.is_router = false) (h6 : cfg'.connections = hd :: tl) :
    getNextNodeClass M c ctx = (some hd, []) := by
  obtain ⟨n0, cs, ir, cn⟩ := cfg'
  simp only at h5 h6
  subst h5
  subst h6
  unfold getNextNodeClass
  rw [h4]
  rfl

theorem getNext_noconns {V : Type} (M : EngineModel V) (c : Nat)
    (ctx : TaskContext V) (cfg' : NodeConfig)
    (h4 : findConfig M.schema c = some cfg') (h6 : cfg'.connections = []) :
    getNextNodeClass M c ctx = (none, []) := by
  obtain ⟨n0, cs, ir, cn⟩ := cfg'
  simp only at h6
  subst h6
  unfold getNextNodeClass
  rw [h4]

theorem getNext_nocfg {V : Type} (M : EngineModel V) (c : Nat)
    (ctx : TaskContext V) (h4 : findConfig M.schema c = none) :
    getNextNodeClass M c ctx = (none, []) := by
  unfold getNextNodeClass
  rw [h4]

/-- Claim C2 (amended): at a node of router class whose config carries
the router flag and declares a nonempty connections list, the engine
invokes no context-transforming process (the iteration emits only the
log and routing events); the successor is `route`, which returns the
first rule's non-empty `determine_next_node` result, else the configured
fallback; and when no rule matches and there is no fallback the next
node is `none` and the run terminates normally as Completed, not as an
error.  The amendment adds the nonempty-connections premise: with an
empty connections list the source returns `None` without consulting the
rules (see the counterexample). -/
theorem router_dispatch {V : Type} (M : EngineModel V)
    (cfgs : Dict Nat NodeConfig) (fuel : Nat) (c : Nat) (ctx : TaskContext V)
    (cfg cfg' : NodeConfig) (hd : Nat) (tl : List Nat)
    (h1 : ctx.should_stop = false) (h2 : dlookup cfgs c = some cfg)
    (h3 : M.isRouterClass c = true) (h4 : findConfig M.schema c = some cfg')
    (h5 : cfg'.is_router = true) (h6 : cfg'.connections = hd :: tl) :
    runLoop M cfgs (fuel + 1) (some c) ctx =
      ([.logStart c, .logFinish c, .routed c (route M c ctx)]
          ++ (runLoop M cfgs fuel (route M c ctx) ctx).1,
        (runLoop M cfgs fuel (route M c ctx) ctx).2) ∧
    (∀ pre rule post x, M.rules c = pre ++ rule :: post →
      (∀ r ∈ pre, r ctx = none) → rule ctx = some x →
      route M c ctx = some x) ∧
    ((∀ r ∈ M.rules c, r ctx = none) → route M c ctx = M.fallback c) ∧
    ((∀ r ∈ M.rules c, r ctx = none) → M.fallback c = none →
      dcontains ctx.metadata "nodes" = true →
      runLoop M cfgs (fuel + 1) (some c) ctx =
        ([.logStart c, .logFinish c, .routed c none],
          .ok ({ ctx with metadata := dremove ctx.metadata "nodes" },
            .completed))) := by
  have hstep := runLoop_step_ok M cfgs fuel c ctx ctx cfg _ h1 h2
    (bodyPhase_router M c ctx h3)
  rw [getNext_router M c ctx cfg' hd tl h4 h5 h6] at hstep
  have hfallback : (∀ r ∈ M.rules c, r ctx = none) →
      route M c ctx = M.fallback c := by
    intro hall
    unfold route
    rw [routeFirst_all_none _ _ hall]
  refine ⟨by simpa using hstep, ?_, hfallback, ?_⟩
  · intro pre rule post x hrules hpre hr
    unfold route
    rw [hrules, routeFirst_first_match pre post rule ctx x hpre hr]
  · intro hall hfb hmeta
    have hroute : route M c ctx = none := by rw [hfallback hall, hfb]
    rw [hstep, hroute]
    rw [runLoop]
    unfold finishRun
    rw [if_pos hmeta]
    simp

/-- Claim C10 (amended): in any engine iteration, the node's `process`
is invoked if and only if the node's class is not a `BaseRouter`
subclass, while rule-based successor selection via `route` is performed
if and only if the node's config in the schema's node list has
`is_router` true and a nonempty connections list; the two criteria are
independent, so a node whose class and flag disagree is dispatched
under mixed semantics.  The amendment adds the declared-config and
nonempty-connections conditions to the routing side (see the
counterexample). -/
theorem dispatch_criteria {V : Type} (M : EngineModel V)
    (cfgs : Dict Nat NodeConfig) (fuel : Nat) (c : Nat)
    (ctx ctx' : TaskContext V) (cfg : NodeConfig) (ev1 : List (Ev V))
    (h1 : ctx.should_stop = false) (h2 : dlookup cfgs c = some cfg)
    (hb : bodyPhase M c ctx = (ev1, .ok ctx')) :
    runLoop M cfgs (fuel + 1) (some c) ctx =
      (ev1 ++ (getNextNodeClass M c ctx').2
          ++ (runLoop M cfgs fuel (getNextNodeClass M c ctx').1 ctx').1,
        (runLoop M cfgs fuel (getNextNodeClass M c ctx').1 ctx').2) ∧
    ((∃ pre, Ev.proc c pre ∈ ev1) ↔ M.isRouterClass c = false) ∧
    ((∃ r, Ev.routed c r ∈ (getNextNodeClass M c ctx').2) ↔
      ∃ cfg', findConfig M.schema c = some cfg' ∧ cfg'.is_router = true ∧
        cfg'.connections ≠ []) := by
  refine ⟨runLoop_step_ok M cfgs fuel c ctx ctx' cfg ev1 h1 h2 hb, ?_, ?_⟩
  · cases h3 : M.isRouterClass c with
    | true =>
      rw [bodyPhase_router M c ctx h3] at hb
      injection hb with he _
      subst he
      simp
    | false =>
      rcases h4 : M.bodies c ctx with ⟨ctx2, err⟩
      cases err with
      | none =>
        rw [bodyPhase_ok M c ctx ctx2 h3 h4] at hb
        injection hb with he _
        subst he
        exact iff_of_true ⟨ctx, by simp⟩ rfl
      | some msg =>
        rw [bodyPhase_err M c ctx ctx2 msg h3 h4] at hb
        injection hb with _ hres
        exact absurd hres (by simp)
  · cases h4 : findConfig M.schema c with
    | none =>
      rw [getNext_nocfg M c ctx' h4]
      simp
    | some cfg' =>
      cases h6 : cfg'.connections with
      | nil =>
        rw [getNext_noconns M c ctx' cfg' h4 h6]
        simp only [List.not_mem_nil, exists_false, false_iff, not_exists]
        rintro cfg2 ⟨hc2, hir2, hconn2⟩
        injection hc2 with hc2
        subst hc2
        exact hconn2 h6
      | cons hd tl =>
        cases h5 : cfg'.is_router with
        | true =>
          rw [getNext_router M c ctx' cfg' hd tl h4 h5 h6]
          exact iff_of_true ⟨route M c ctx', by simp⟩ ⟨cfg', rfl, h5, by simp [h6]⟩
        | false =>
          rw [getNext_task M c ctx' cfg' hd tl h4 h5 h6]
          simp only [List.not_mem_nil, exists_false, false_iff, not_exists]
          rintro cfg2 ⟨hc2, hir2, hconn2⟩
          injection hc2 with hc2
          subst hc2
          rw [h5] at hir2
          exact Bool.noConfusion hir2

/-- Claim C6: for a fixed engine model (schema, deterministic node
bodies, router rules) and a fixed starting state, any two runs of the
loop produce the same event trace (hence visit the same sequence of node
identities) and the same outcome (hence the same final context): the
loop relation is a function of its inputs. -/
theorem run_deterministic {V : Type} (M : EngineModel V)
    (cfgs : Dict Nat NodeConfig) (cur : Option Nat) (ctx : TaskContext V)
    (tr1 tr2 : List (Ev V))
    (res1 res2 : Except (EngErr V) (TaskContext V × TermStatus))
    (hr1 : RunRel M cfgs cur ctx tr1 res1)
    (hr2 : RunRel M cfgs cur ctx tr2 res2) : tr1 = tr2 ∧ res1 = res2 := by
  induction hr1 generalizing tr2 res2 with
  | done ctx =>
    cases hr2 with
    | done => exact ⟨rfl, rfl⟩
  | halt c ctx h =>
    cases hr2 with
    | halt => exact ⟨rfl, rfl⟩
    | missing _ _ h' => rw [h] at h'; exact Bool.noConfusion h'
    | bodyFail _ _ _ _ _ h' => rw [h] at h'; exact Bool.noConfusion h'
    | stepTask _ _ _ _ _ _ h' => rw [h] at h'; exact Bool.noConfusion h'
    | stepRouter _ _ _ _ _ h' => rw [h] at h'; exact Bool.noConfusion h'
  | missing c ctx h hk =>
    cases hr2 with
    | halt _ _ h' => rw [h] at h'; exact Bool.noConfusion h'
    | missing => exact ⟨rfl, rfl⟩
    | bodyFail _ _ _ _ _ _ hk' => rw [hk] at hk'; exact Option.noConfusion hk'
    | stepTask _ _ _ _ _ _ _ hk' => rw [hk] at hk'; exact Option.noConfusion hk'
    | stepRouter _ _ _ _ _ _ hk' => rw [hk] at hk'; exact Option.noConfusion hk'
  | bodyFail c ctx ctx' cfg msg h hk hr hb =>
    cases hr2 with
    | halt _ _ h' => rw [h] at h'; exact Bool.noConfusion h'
    | missing _ _ _ hk' => rw [hk] at hk'; exact Option.noConfusion hk'
    | bodyFail _ _ ctx2 _ msg2 _ _ _ hb2 =>
      rw [hb] at hb2
      injection hb2 with he1 he2
      injection he2 with he2
      subst he1
      subst he2
      exact ⟨rfl, rfl⟩
    | stepTask _ _ ctx2 _ _ _ _ _ _ hb2 =>
      rw [hb] at hb2
      injection hb2 with _ he2
      exact Option.noConfusion he2
    | stepRouter _ _ _ _ _ _ _ hr2' => rw [hr] at hr2'; exact Bool.noConfusion hr2'
  | stepTask c ctx ctx' cfg tr res h hk hr hb hrest ih =>
    cases hr2 with
    | halt _ _ h' => rw [h] at h'; exact Bool.noConfusion h'
    | missing _ _ _ hk' => rw [hk] at hk'; exact Option.noConfusion hk'
    | bodyFail _ _ ctx2 _ msg2 _ _ _ hb2 =>
      rw [hb] at hb2
      injection hb2 with _ he2
      exact Option.noConfusion he2
    | stepTask _ _ ctx2 _ tr2' res2' _ _ _ hb2 hrest2 =>
      rw [hb] at hb2
      injection hb2 with he1 _
      subst he1
      obtain ⟨ht, hres⟩ := ih _ _ hrest2
      exact ⟨by rw [ht], hres⟩
    | stepRouter _ _ _ _ _ _ _ hr2' => rw [hr] at hr2'; exact Bool.noConfusion hr2'
  | stepRouter c ctx cfg tr res h hk hr hrest ih =>
    cases hr2 with
    | halt _ _ h' => rw [h] at h'; exact Bool.noConfusion h'
    | missing _ _ _ hk' => rw [hk] at hk'; exact Option.noConfusion hk'
    | bodyFail _ _ _ _ _ _ _ hr2' => rw [hr] at hr2'; exact Bool.noConfusion hr2'
    | stepTask _ _ _ _ _ _ _ _ hr2' => rw [hr] at hr2'; exact Bool.noConfusion hr2'
    | stepRouter _ _ _ tr2' res2' _ _ _ hrest2 =>
      obtain ⟨ht, hres⟩ := ih _ _ hrest2
      exact ⟨by rw [ht], hres⟩

theorem finishRun_ok_inv {V : Type} (ctx cf : TaskContext V) (st st' : TermStatus)
    (h : finishRun ctx st = .ok (cf, st')) :
    cf = { ctx with metadata := dremove ctx.metadata "nodes" } ∧ st' = st := by
  unfold finishRun at h
  split at h
  · injection h with h1
    injection h1 with h1 h2
    exact ⟨h1.symm, h2.symm⟩
  · exact Except.noConfusion h

theorem runLoop_metaInv {V : Type} (M : EngineModel V) (cfgs : Dict Nat NodeConfig)
    (cm : Dict Nat NodeConfig) (hbody : PreservesNodesEntry M cm) :
    ∀ fuel cur ctx, MetaInv cm ctx →
      (∀ n pre, Ev.proc n pre ∈ (runLoop M cfgs fuel cur ctx).1 →
        dlookup pre.metadata "nodes" = some (.cfgMap cm) ∧ Dict.WF pre.metadata) ∧
      (∀ cf st, (runLoop M cfgs fuel cur ctx).2 = .ok (cf, st) →
        ∃ cpre, MetaInv cm cpre ∧
          cf = { cpre with metadata := dremove cpre.metadata "nodes" }) := by
  intro fuel
  induction fuel with
  | zero =>
    intro cur ctx hinv
    cases cur with
    | none =>
      constructor
      · intro n pre hpre
        simp [runLoop] at hpre
      · intro cf st hok
        simp only [runLoop] at hok
        exact ⟨ctx, hinv, (finishRun_ok_inv ctx cf .completed st hok).1⟩
    | some c =>
      constructor
      · intro n pre hpre
        simp [runLoop] at hpre
      · intro cf st hok
        simp [runLoop] at hok
  | succ fuel ih =>
    intro cur ctx hinv
    cases cur with
    | none =>
      constructor
      · intro n pre hpre
        simp [runLoop] at hpre
      · intro cf st hok
        simp only [runLoop] at hok
        exact ⟨ctx, hinv, (finishRun_ok_inv ctx cf .completed st hok).1⟩
    | some c =>
      by_cases hstop : ctx.should_stop = true
      · constructor
        · intro n pre hpre
          rw [runLoop, if_pos hstop] at hpre
          simp at hpre
        · intro cf st hok
          rw [runLoop, if_pos hstop] at hok
          exact ⟨ctx, hinv, (finishRun_ok_inv ctx cf .stopped st hok).1⟩
      · have hstop' : ctx.should_stop = false := by
          cases h : ctx.should_stop
          · rfl
          · exact absurd h hstop
        cases hk : dlookup cfgs c with
        | none =>
          constructor
          · intro n pre hpre
            rw [runLoop, if_neg hstop, hk] at hpre
            simp at hpre
          · intro cf st hok
            rw [runLoop, if_neg hstop, hk] at hok
            simp at hok
        | some cfg =>
          cases h3 : M.isRouterClass c with
          | true =>
            have hstep := runLoop_step_ok M cfgs fuel c ctx ctx cfg _ hstop' hk
              (bodyPhase_router M c ctx h3)
            rw [hstep]
            obtain ⟨ihtr, ihres⟩ :=
              ih (getNextNodeClass M c ctx).1 ctx hinv
            constructor
            · intro n pre hpre
              simp only [List.append_assoc, List.mem_append] at hpre
              rcases hpre with h | h | h
              · simp at h
              · exact absurd (getNext_events_routed M c ctx _ h) (by simp)
              · exact ihtr n pre h
            · exact ihres
          | false =>
            rcases h4 : M.bodies c ctx with ⟨ctx2, err⟩
            cases err with
            | some msg =>
              have hstep := runLoop_step_err M cfgs fuel c ctx cfg _ _ hstop' hk
                (bodyPhase_err M c ctx ctx2 msg h3 h4)
              rw [hstep]
              constructor
              · intro n pre hpre
                simp only [List.mem_cons] at hpre
                rcases hpre with h | h | h | h | h
                · exact absurd h (by simp)
                · injection h with hn hp
                  subst hp
                  exact hinv
                · exact absurd h (by simp)
                · exact absurd h (by simp)
                · simp at h
              · intro cf st hok
                simp at hok
            | none =>
              have hinv2 : MetaInv cm ctx2 := by
                have := hbody c ctx hinv
                rw [h4] at this
                exact this
              have hstep := runLoop_step_ok M cfgs fuel c ctx ctx2 cfg _ hstop' hk
                (bodyPhase_ok M c ctx ctx2 h3 h4)
              rw [hstep]
              obtain ⟨ihtr, ihres⟩ :=
                ih (getNextNodeClass M c ctx2).1 ctx2 hinv2
              constructor
              · intro n pre hpre
                simp only [List.append_assoc, List.mem_append] at hpre
                rcases hpre with h | h | h
                · simp only [List.mem_cons] at h
                  rcases h with h | h | h | h
                  · exact absurd h (by simp)
                  · injection h with hn hp
                    subst hp
                    exact hinv
                  · exact absurd h (by simp)
                  · simp at h
                · exact absurd (getNext_events_routed M c ctx2 _ h) (by simp)
                · exact ihtr n pre h
              · exact ihres

/-- Claim C8: the engine injects the identity-to-config map into the
context's metadata under `"nodes"` before the first node executes;
provided node bodies do not disturb that entry, every invoked body sees
it present; and on reaching a terminal state the returned context no
longer contains the transient entry while every other metadata entry of
the final pre-strip context is preserved unchanged. -/
theorem metadata_lifecycle {V : Type} (M : EngineModel V) (fuel : Nat)
    (raw ev : V) (hparse : M.parseEvent raw = .ok ev)
    (hbody : PreservesNodesEntry M (initNodes M.schema)) :
    (∀ n pre, Ev.proc n pre ∈ (runWorkflow M fuel raw).1 →
      dlookup pre.metadata "nodes" = some (.cfgMap (initNodes M.schema))) ∧
    (∀ cf st, (runWorkflow M fuel raw).2 = .ok (cf, st) →
      dlookup cf.metadata "nodes" = none ∧
      ∃ cpre : TaskContext V,
        dlookup cpre.metadata "nodes" = some (.cfgMap (initNodes M.schema)) ∧
        cf.metadata = dremove cpre.metadata "nodes" ∧
        ∀ k, k ≠ "nodes" → dlookup cf.metadata k = dlookup cpre.metadata k) := by
  have hrun : runWorkflow M fuel raw =
      runLoop M (initNodes M.schema) fuel (some M.schema.start)
        { event := ev, nodes := [],
          metadata := dinsert [] "nodes" (.cfgMap (initNodes M.schema)),
          should_stop := false } := by
    unfold runWorkflow
    rw [hparse]
  have hinv0 : MetaInv (initNodes M.schema)
      ({ event := ev, nodes := [],
         metadata := dinsert [] "nodes" (.cfgMap (initNodes M.schema)),
         should_stop := false } : TaskContext V) := by
    constructor
    · simp [dinsert, dlookup]
    · simp [dinsert, Dict.WF, keysOf]
  obtain ⟨htr, hres⟩ := runLoop_metaInv M (initNodes M.schema) (initNodes M.schema)
    hbody fuel (some M.schema.start)
    { event := ev, nodes := [],
      metadata := dinsert [] "nodes" (.cfgMap (initNodes M.schema)),
      should_stop := false } hinv0
  rw [hrun]
  constructor
  · intro n pre hpre
    exact (htr n pre hpre).1
  · intro cf st hok
    obtain ⟨cpre, ⟨hlk, hwf⟩, hcf⟩ := hres cf st hok
    have hmeta : cf.metadata = dremove cpre.metadata "nodes" := by rw [hcf]
    refine ⟨?_, cpre, hlk, hmeta, ?_⟩
    · rw [hmeta]
      exact dlookup_dremove_self cpre.metadata "nodes" hwf
    · intro k hk
      rw [hmeta]
      exact dlookup_dremove_ne cpre.metadata "nodes" k (Ne.symm hk)

theorem gatherJoin_ok {V : Type} (xs : List (TaskContext V × Option String))
    (h : ∀ x ∈ xs, x.2 = none) : gatherJoin xs = .ok (xs.map Prod.fst) := by
  induction xs with
  | nil => rfl
  | cons x rest ih =>
    obtain ⟨c, e⟩ := x
    have hx : e = none := h (c, e) (List.mem_cons_self _ _)
    subst hx
    simp only [gatherJoin, ih (fun y hy => h y (List.mem_cons_of_mem _ hy)), List.map_cons]

theorem gatherJoin_err {V : Type} (xs : List (TaskContext V × Option String))
    (h : ∃ x ∈ xs, x.2 ≠ none) : ∃ msg, gatherJoin xs = .error msg := by
  induction xs with
  | nil => simp at h
  | cons x rest ih =>
    obtain ⟨c, e⟩ := x
    cases e with
    | some msg => exact ⟨msg, rfl⟩
    | none =>
      obtain ⟨y, hy, hne⟩ := h
      rcases List.mem_cons.mp hy with h1 | h2
      · subst h1; simp at hne
      · obtain ⟨msg, hmsg⟩ := ih ⟨y, h2, hne⟩
        exact ⟨msg, by simp [gatherJoin, hmsg]⟩

/-- Claim C9: `update_node` merges the given fields shallowly into the
node's result record, creating the entry if absent: a field present in
the update takes the update's value (last write wins per field), a field
present only in the old record is preserved, and the records of all
other node identities are unchanged.  The no-duplicate-keys hypothesis
is what Python keyword arguments guarantee by construction. -/
theorem update_node_spec {V : Type} (ctx : TaskContext V) (n : String) (F : Dict String V)
    (hF : (keysOf F).Nodup) :
    (∀ m, m ≠ n → dlookup (ctx.update_node n F).nodes m = dlookup ctx.nodes m) ∧
    dlookup (ctx.update_node n F).nodes n =
      some (dmerge ((dlookup ctx.nodes n).getD []) F) ∧
    (∀ k v, dlookup F k = some v →
      dlookup (dmerge ((dlookup ctx.nodes n).getD []) F) k = some v) ∧
    (∀ k, dlookup F k = none →
      dlookup (dmerge ((dlookup ctx.nodes n).getD []) F) k =
        dlookup ((dlookup ctx.nodes n).getD []) k) := by
  refine ⟨?_, ?_, ?_, ?_⟩
  · intro m hm
    exact dlookup_dinsert_ne _ _ _ _ (fun h => hm h.symm)
  · exact dlookup_dinsert_self _ _ _
  · intro k v hv
    rw [dlookup_dmerge _ _ _ hF, hv]
  · intro k hv
    rw [dlookup_dmerge _ _ _ hF, hv]

/-- Claim C4: in a fan-out group execution, if every sibling's process
completes without error then the group call returns exactly one result
per sibling, in the declared order of the concurrent-children list; and
if at least one sibling raises, the group's own call fails, so no
partial success is surfaced to the caller. -/
theorem fanout_atomicity {V : Type} (M : EngineModel V) (selfId : Nat)
    (ctx : TaskContext V) (m : Dict Nat NodeConfig) (cfg : NodeConfig)
    (hmeta : dlookup ctx.metadata "nodes" = some (.cfgMap m))
    (hcfg : dlookup m selfId = some cfg) :
    ((∀ n ∈ cfg.concurrent_nodes, (M.bodies n ctx).2 = none) →
      executeNodesConcurrently M selfId ctx =
        .ok (cfg.concurrent_nodes.map (fun n => (M.bodies n ctx).1))) ∧
    ((∃ n ∈ cfg.concurrent_nodes, (M.bodies n ctx).2 ≠ none) →
      ∃ msg, executeNodesConcurrently M selfId ctx = .error msg) := by
  have hred : executeNodesConcurrently M selfId ctx =
      gatherJoin (cfg.concurrent_nodes.map (fun n => M.bodies n ctx)) := by
    simp only [executeNodesConcurrently, hmeta, hcfg]
  constructor
  · intro hall
    rw [hred, gatherJoin_ok _ (by
      intro x hx
      obtain ⟨n, hn, rfl⟩ := List.mem_map.mp hx
      exact hall n hn)]
    rw [List.map_map]
    rfl
  · intro hex
    obtain ⟨n, hn, hne⟩ := hex
    rw [hred]
    exact gatherJoin_err _ ⟨M.bodies n ctx, List.mem_map_of_mem _ hn, hne⟩

theorem runLoop_refines_RunRel {V : Type} (M : EngineModel V)
    (cfgs : Dict Nat NodeConfig) :
    ∀ fuel cur ctx tr res, runLoop M cfgs fuel cur ctx = (tr, res) →
      res ≠ .error .fuelOut → RunRel M cfgs cur ctx tr res := by
  intro fuel
  induction fuel with
  | zero =>
    intro cur ctx tr res h hne
    cases cur with
    | none =>
      rw [runLoop] at h
      injection h with h1 h2
      subst h1
      subst h2
      exact RunRel.done ctx
    | some c =>
      rw [runLoop] at h
      injection h with h1 h2
      subst h2
      exact absurd rfl hne
  | succ fuel ih =>
    intro cur ctx tr res h hne
    cases cur with
    | none =>
      rw [runLoop] at h
      injection h with h1 h2
      subst h1
      subst h2
      exact RunRel.done ctx
    | some c =>
      by_cases hstop : ctx.should_stop = true
      · rw [runLoop, if_pos hstop] at h
        injection h with h1 h2
        subst h1
        subst h2
        exact RunRel.halt c ctx hstop
      · have hstop' : ctx.should_stop = false := by
          cases hs : ctx.should_stop
          · rfl
          · exact absurd hs hstop
        cases hk : dlookup cfgs c with
        | none =>
          rw [runLoop, if_neg hstop, hk] at h
          injection h with h1 h2
          subst h1
          subst h2
          exact RunRel.missing c ctx hstop' hk
        | some cfg =>
          cases h3 : M.isRouterClass c with
          | true =>
            rw [runLoop_step_ok M cfgs fuel c ctx ctx cfg _ hstop' hk
              (bodyPhase_router M c ctx h3)] at h
            injection h with h1 h2
            subst h1
            subst h2
            rcases hrest : runLoop M cfgs fuel (getNextNodeClass M c ctx).1 ctx
              with ⟨tr', res'⟩
            exact RunRel.stepRouter c ctx cfg tr' res' hstop' hk h3
              (ih _ _ _ _ hrest (by rw [hrest] at hne; simpa using hne))
          | false =>
            rcases h4 : M.bodies c ctx with ⟨ctx2, err⟩
            cases err with
            | some msg =>
              rw [runLoop_step_err M cfgs fuel c ctx cfg _ _ hstop' hk
                (bodyPhase_err M c ctx ctx2 msg h3 h4)] at h
              injection h with h1 h2
              subst h1
              subst h2
              exact RunRel.bodyFail c ctx ctx2 cfg msg hstop' hk h3 h4
            | none =>
              rw [runLoop_step_ok M cfgs fuel c ctx ctx2 cfg _ hstop' hk
                (bodyPhase_ok M c ctx ctx2 h3 h4)] at h
              injection h with h1 h2
              subst h1
              subst h2
              rcases hrest : runLoop M cfgs fuel (getNextNodeClass M c ctx2).1 ctx2
                with ⟨tr', res'⟩
              exact RunRel.stepTask c ctx ctx2 cfg tr' res' hstop' hk h3 h4
                (ih _ _ _ _ hrest (by rw [hrest] at hne; simpa using hne))

/-- Counterexample to claim C2 as stated: node 0 is a router (class and
flag) whose only rule matches, returning node 1, yet the run completes
after node 0 with no routing event and without visiting node 1, because
its connections list is empty — the successor is not the first matching
rule's result. -/
theorem router_empty_conns_cex :
    runWorkflow cexModelRouter 2 0 =
      ([.logStart 0, .logFinish 0], .ok (⟨0, [], [], false⟩, .completed)) ∧
    (cexModelRouter.rules 0).map (fun r => r cexCtxRouter) = [some 1] ∧
    cexModelRouter.isRouterClass 0 = true ∧
    (findConfig cexSchemaRouter 0).map NodeConfig.is_router = some true :=
  ⟨rfl, rfl, rfl, rfl⟩

/-- Counterexample to claim C10 as stated: node 5's config has
`is_router` true, yet no rule-based selection via `route` happens (the
trace has no routing event) because its connections list is empty; its
process is still invoked since its class is not a router subclass. -/
theorem dispatch_flag_no_route_cex :
    runWorkflow cexModelMixed 2 0 =
      ([.logStart 5, .proc 5 cexCtxMixed, .logFinish 5],
        .ok (⟨0, [("node5", [("ran", 5)])], [], false⟩, .completed)) ∧
    (findConfig cexSchemaMixed 5).map NodeConfig.is_router = some true :=
  ⟨rfl, rfl⟩

/-- Counterexample to claim C7 as stated: configured node 1 is
unreachable from the start node 0, yet `validate` fails with the cycle
error (node 1 also forms a self-loop and the cycle check runs first),
not with an error naming the unreachable set. -/
theorem unreachable_masked_by_cycle_cex :
    validate cexSchemaUnreach = .error .cycle ∧
    1 ∈ allNodes cexSchemaUnreach ∧ ¬SpecReachable cexSchemaUnreach 1 :=
  ⟨rfl, by decide,
    fun h => absurd ((mem_reachableSet_iff cexSchemaUnreach 1).mpr h) (by decide)⟩

/-- Witness for claim C2's theorem at a concrete router schema: all
rules fail and there is no fallback, so the run terminates Completed. -/
theorem router_dispatch_w :
    runLoop wModel (initNodes wSchema) 1 (some 0) wCtx =
      ([.logStart 0, .logFinish 0, .routed 0 none],
        .ok (⟨0, [], [], false⟩, .completed)) :=
  (router_dispatch wModel (initNodes wSchema) 0 0 wCtx
      ⟨0, [1, 2], true, []⟩ ⟨0, [1, 2], true, []⟩ 1 [2]
      rfl rfl rfl rfl rfl rfl).2.2.2
    (by
      intro r hr
      rw [show wModel.rules 0 = [fun _ => none] from rfl, List.mem_singleton] at hr
      subst hr
      rfl)
    rfl rfl

/-- Witness for claim C3's theorem: a concrete node that sets the stop
flag; the run stops right after it with the transient entry stripped. -/
theorem stop_semantics_w :
    (∃ st, runLoop wStopModel (initNodes wStopSchema) 2 (some 0) wStopCtx =
      ([.logStart 0, .proc 0 wStopCtx, .logFinish 0],
        .ok (⟨0, [], [], true⟩, st))) ∧
    ∀ m pre, Ev.proc m pre ∈
        (runLoop wStopModel (initNodes wStopSchema) 2 (some 0) wStopCtx).1 →
      m = 0 ∧ pre = wStopCtx :=
  stop_semantics wStopModel (initNodes wStopSchema) 0 0 wStopCtx
    ⟨0, [], [("nodes", .cfgMap (initNodes wStopSchema))], true⟩
    ⟨0, [], false, []⟩ rfl rfl rfl rfl rfl rfl

/-- Witness for claim C5's theorem: a concrete body that raises; the
run aborts with the logged error events and the unrolled-back context. -/
theorem exception_propagation_w :
    runLoop wFailModel (initNodes wStopSchema) 1 (some 0) wStopCtx =
      ([.logStart 0, .proc 0 wStopCtx, .logError 0, .logFinish 0],
        .error (.nodeErr 0 "boom" wStopCtx)) :=
  exception_propagation wFailModel (initNodes wStopSchema) 0 0 wStopCtx wStopCtx
    ⟨0, [], false, []⟩ "boom" rfl rfl rfl rfl

/-- Witness for claim C4's theorem: two siblings that both succeed
yield one result per sibling in declared order. -/
theorem fanout_atomicity_w :
    executeNodesConcurrently wFanModel 7 wFanCtx = .ok [wFanCtx, wFanCtx] :=
  (fanout_atomicity wFanModel 7 wFanCtx [(7, wFanCfg)] wFanCfg rfl rfl).1
    (by intro n _; rfl)

/-- Witness for claim C6's theorem, applied to two derivations of the
halt step at a concrete stopped context. -/
theorem run_deterministic_w :
    ([] : List (Ev Nat)) = [] ∧
    (finishRun wHaltCtx .stopped : Except (EngErr Nat) (TaskContext Nat × TermStatus)) =
      finishRun wHaltCtx .stopped :=
  run_deterministic wModel (initNodes wSchema) (some 0) wHaltCtx [] []
    (finishRun wHaltCtx .stopped) (finishRun wHaltCtx .stopped)
    (RunRel.halt 0 wHaltCtx rfl) (RunRel.halt 0 wHaltCtx rfl)

/-- Witness for claim C7's amended theorem at a concrete acyclic
schema with an unreachable configured node. -/
theorem unreachable_naming_w :
    validate wUnreachSchema =
      .error (.unreachable (allNodes wUnreachSchema \ reachableSet wUnreachSchema)) :=
  (validate_names_unreachable wUnreachSchema
    (fun h => absurd ((has_cycle_iff wUnreachSchema).mpr h) (by decide))
    ⟨1, by decide,
      fun h => absurd ((mem_reachableSet_iff wUnreachSchema 1).mpr h) (by decide)⟩).1

/-- Witness for claim C8's theorem at a concrete model whose body
preserves metadata. -/
theorem metadata_lifecycle_w :
    (∀ n pre, Ev.proc n pre ∈ (runWorkflow wStopModel 3 0).1 →
      dlookup pre.metadata "nodes" = some (.cfgMap (initNodes wStopModel.schema))) ∧
    (∀ cf st, (runWorkflow wStopModel 3 0).2 = .ok (cf, st) →
      dlookup cf.metadata "nodes" = none ∧
      ∃ cpre : TaskContext Nat,
        dlookup cpre.metadata "nodes" = some (.cfgMap (initNodes wStopModel.schema)) ∧
        cf.metadata = dremove cpre.metadata "nodes" ∧
        ∀ k, k ≠ "nodes" → dlookup cf.metadata k = dlookup cpre.metadata k) :=
  metadata_lifecycle wStopModel 3 0 0 rfl
    (fun _ _ h => by
      constructor
      · exact h.1
      · exact h.2)

/-- Witness for claim C9's theorem at a concrete context and field
update with overlapping and fresh keys. -/
theorem update_node_spec_w :
    (∀ m, m ≠ "A" → dlookup (wC9Ctx.update_node "A" [("x", 2), ("y", 3)]).nodes m
        = dlookup wC9Ctx.nodes m) ∧
    dlookup (wC9Ctx.update_node "A" [("x", 2), ("y", 3)]).nodes "A" =
      some (dmerge ((dlookup wC9Ctx.nodes "A").getD []) [("x", 2), ("y", 3)]) ∧
    (∀ k v, dlookup ([("x", 2), ("y", 3)] : Dict String Nat) k = some v →
      dlookup (dmerge ((dlookup wC9Ctx.nodes "A").getD []) [("x", 2), ("y", 3)]) k
        = some v) ∧
    (∀ k, dlookup ([("x", 2), ("y", 3)] : Dict String Nat) k = none →
      dlookup (dmerge ((dlookup wC9Ctx.nodes "A").getD []) [("x", 2), ("y", 3)]) k =
        dlookup ((dlookup wC9Ctx.nodes "A").getD []) k) :=
  update_node_spec wC9Ctx "A" [("x", 2), ("y", 3)] (by decide)

/-- Witness for claim C10's amended theorem at a concrete router-class
node: no process invocation appears in its body-phase events. -/
theorem dispatch_criteria_w :
    ((∃ pre, Ev.proc 0 pre ∈ ([.logStart 0, .logFinish 0] : List (Ev Nat))) ↔
      wModel.isRouterClass 0 = false) :=
  (dispatch_criteria wModel (initNodes wSchema) 1 0 wCtx wCtx
    ⟨0, [1, 2], true, []⟩ [.logStart 0, .logFinish 0] rfl rfl rfl).2.1

end Launchpad
